import Mathlib

/-!
# Verification of pkgcore components against their specification

This development gives a shallow embedding of several components of the
pkgcore package-management framework and proves (or refutes) properties
stated in its natural-language specification.

Components embedded (each from the corresponding Python source file):

* `PkgUpdates` — `pkgcore/ebuild/pkg_updates.py`: scanning of updates
  directories and the deque-splicing algorithm of `read_updates`.
  The mutable `deque`-of-`deque` structure is embedded as an explicit heap
  (a list of deques, each a list of entries, where an entry is either a
  command or a reference to another deque), with state passed explicitly.
* `Profiles` — `pkgcore/ebuild/profiles.py`: `split_negations`, the
  `load_decorator` error wrapping, `OnDiskProfile._collapse_generic`,
  `_collapse_masks` and `_collapse_env`, and the lazy attribute caching of
  `ProfileNode.__getattr__`.
* `Repo` — `pkgcore/ebuild/repository.py`: `UnconfiguredTree._pkg_filter`
  and the `_masked` bookkeeping.
* `AgentRPC` — `pkgcore/util/agentrpc.py`: the length-prefixed JSON
  framing of `JsonRPC` and the error behaviour of `agent_rpc_call`.

Machine integers do not occur; Python strings are embedded as `String`
(code-point comparison agrees with Lean's `String` order), Python lists
and deques as `List`, Python sets as `Finset`, and fallible code returns
`Except`/`Option`.
-/

namespace PkgUpdates

/-- Embedding of the regular-expression test `^(\d)Q-(\d{4})$`
(`valid_updates_re` in `pkg_updates.py`) applied to a file name.  On a
match, returns the pair `(group 2, group 1)`, i.e. `(year, quarter)`,
exactly the sort key built by `_scan_directory`. -/
def validUpdatesMatch (s : String) : Option (String × String) :=
  match s.data with
  | [q, c1, c2, y1, y2, y3, y4] =>
    if q.isDigit ∧ c1 = 'Q' ∧ c2 = '-' ∧ y1.isDigit ∧ y2.isDigit ∧ y3.isDigit ∧ y4.isDigit then
      some (⟨[y1, y2, y3, y4]⟩, ⟨[q]⟩)
    else none
  | _ => none

/-- The `(year, quarter)` sort key `_scan_directory` attaches to a
matching file name (`("", "")` for non-matching names, which never occur
in the scanned list). -/
def scanKey (s : String) : String × String :=
  (validUpdatesMatch s).getD ("", "")

/-- Comparison of two `(year, quarter)` keys: Python compares the tuples
of strings lexicographically, which is the lexicographic product order on
`String × String`. -/
def keyLE (a b : (String × String) × String) : Prop :=
  toLex a.1 ≤ toLex b.1

instance : DecidableRel keyLE := fun a b =>
  inferInstanceAs (Decidable (toLex a.1 ≤ toLex b.1))

/-- Embedding of `_scan_directory` (`pkg_updates.py` lines 19–26): keep
the file names matching `valid_updates_re` paired with their
`(year, quarter)` key, sort by the key (Python `list.sort`; ties cannot
occur since the key determines the name), and drop the keys. -/
def scanDirectory (names : List String) : List String :=
  let files := names.filterMap (fun x => (validUpdatesMatch x).map (fun k => (k, x)))
  (List.insertionSort keyLE files).map Prod.snd

theorem keyLE_total (a b : (String × String) × String) : keyLE a b ∨ keyLE b a :=
  le_total (toLex a.1) (toLex b.1)

theorem keyLE_trans {a b c : (String × String) × String}
    (h1 : keyLE a b) (h2 : keyLE b c) : keyLE a c :=
  le_trans h1 h2

instance : IsTotal ((String × String) × String) keyLE := ⟨keyLE_total⟩

instance : IsTrans ((String × String) × String) keyLE := ⟨fun _ _ _ => keyLE_trans⟩

theorem mem_scanDirectory (names : List String) (x : String) :
    x ∈ scanDirectory names ↔ x ∈ names ∧ (validUpdatesMatch x).isSome := by
  unfold scanDirectory
  rw [List.mem_map]
  constructor
  · rintro ⟨p, hp, rfl⟩
    have hp' := (List.perm_insertionSort keyLE _).mem_iff.mp hp
    rw [List.mem_filterMap] at hp'
    obtain ⟨a, ha, hfa⟩ := hp'
    cases hva : validUpdatesMatch a with
    | none => rw [hva] at hfa; simp at hfa
    | some k =>
      rw [hva] at hfa
      simp only [Option.map_some'] at hfa
      cases hfa
      exact ⟨ha, by rw [hva]; rfl⟩
  · rintro ⟨hx, hsome⟩
    cases hva : validUpdatesMatch x with
    | none => rw [hva] at hsome; simp at hsome
    | some k =>
      refine ⟨(k, x), ?_, rfl⟩
      rw [(List.perm_insertionSort keyLE _).mem_iff, List.mem_filterMap]
      exact ⟨x, hx, by rw [hva]; rfl⟩

theorem sorted_scanDirectory (names : List String) :
    (scanDirectory names).Pairwise (fun a b => toLex (scanKey a) ≤ toLex (scanKey b)) := by
  unfold scanDirectory
  have hs : (List.insertionSort keyLE
      (names.filterMap (fun x => (validUpdatesMatch x).map (fun k => (k, x))))).Pairwise keyLE :=
    List.sorted_insertionSort keyLE _
  rw [List.pairwise_map]
  refine hs.imp_of_mem ?_
  intro p q hp hq hpq
  have hkey : ∀ r : (String × String) × String,
      r ∈ List.insertionSort keyLE
        (names.filterMap (fun x => (validUpdatesMatch x).map (fun k => (k, x)))) →
      scanKey r.2 = r.1 := by
    intro r hr
    have hr' := (List.perm_insertionSort keyLE _).mem_iff.mp hr
    rw [List.mem_filterMap] at hr'
    obtain ⟨a, _, hfa⟩ := hr'
    cases hva : validUpdatesMatch a with
    | none => rw [hva] at hfa; simp at hfa
    | some k =>
      rw [hva] at hfa
      simp only [Option.map_some'] at hfa
      cases hfa
      simp [scanKey, hva]
  rw [hkey p hp, hkey q hq]
  exact hpq

/-- The pattern the specification states (`^[1-4]Q-\d{4}$`): quarter digit
restricted to 1–4.  Written from the spec's words, to be compared with
`validUpdatesMatch`, which embeds the source's `^(\d)Q-(\d{4})$`. -/
def specQuarterMatch (s : String) : Bool :=
  match s.data with
  | [q, c1, c2, y1, y2, y3, y4] =>
    ('1' ≤ q ∧ q ≤ '4') ∧ c1 = 'Q' ∧ c2 = '-' ∧
      y1.isDigit ∧ y2.isDigit ∧ y3.isDigit ∧ y4.isDigit
  | _ => false

end PkgUpdates

namespace Profiles

/-- `ProfileError(path, filename, error)` from `profiles.py`. -/
structure ProfileError where
  path : String
  filename : String
  error : String
deriving DecidableEq, Repr

/-- Embedding of `split_negations` (`profiles.py` lines 63–72): a line
starting with `-` contributes its tail to the negations, a bare `-`
raises `ValueError("'-' negation without a token")`; every other line is
a positive.  `func` is the per-token parser (`str`, or an atom parser —
`pkgcore.ebuild.atom` is external to the sources under verification and
is abstracted as a total token function).  Input lines are the logical
lines produced by the `iter_read_bash` handler, which are never empty. -/
def split_negations (func : String → α) : List String → Except String (List α × List α)
  | [] => .ok ([], [])
  | line :: rest =>
    match line.data with
    | '-' :: tokrest =>
      if tokrest = [] then .error "'-' negation without a token"
      else (split_negations func rest).map (fun r => (func ⟨tokrest⟩ :: r.1, r.2))
    | _ => (split_negations func rest).map (fun r => (r.1, func line :: r.2))

/-- Embedding of the `load_decorator("package.mask")`-wrapped
`_load_masks`: a missing file (`none`) yields the `()` fallback, i.e. an
empty pair; any exception escaping the parser is wrapped into a
`ProfileError` naming the file (`load_decorator`, lines 43–61). -/
def load_masks (path : String) (fileData : Option (List String)) :
    Except ProfileError (List String × List String) :=
  match fileData with
  | none => .ok ([], [])
  | some data =>
    match split_negations id data with
    | .ok r => .ok r
    | .error e => .error ⟨path, "package.mask", e⟩

/-- The pair-valued lazy attributes of a `ProfileNode` that
`OnDiskProfile` collapses: each is a `(negations, positives)` pair
(atoms/CPVs are abstracted as an arbitrary type with decidable
equality). -/
structure PNode (α : Type) where
  system : List α × List α
  visibility : List α × List α
  masks : List α × List α
  pkg_provided : List α × List α
deriving DecidableEq

/-- Embedding of `OnDiskProfile._collapse_generic` (`profiles.py` lines
332–338): fold over the stack, removing each node's negations from the
accumulated set and adding its positives (`s.difference_update(val[0]);
s.update(val[1])`). -/
def collapse_generic [DecidableEq α] (stack : List (PNode α))
    (get : PNode α → List α × List α) : Finset α :=
  stack.foldl (fun s node => (s \ (get node).1.toFinset) ∪ (get node).2.toFinset) ∅

/-- Embedding of `OnDiskProfile._collapse_masks` (lines 400–402): the
union (`frozenset(chain(..))`) of the generic collapses of the `masks`
and `visibility` attributes. -/
def collapse_masks [DecidableEq α] (stack : List (PNode α)) : Finset α :=
  collapse_generic stack PNode.masks ∪ collapse_generic stack PNode.visibility

/-- The collapsing rule exactly as the specification words it: iterate
the stack's `(neg, pos)` pairs in order, maintaining a set `S`, with
`S := (S \ neg) ∪ pos`.  Written from the spec, to be compared with the
source's collapsed attributes. -/
def specPairFold [DecidableEq α] (pairs : List (List α × List α)) : Finset α :=
  pairs.foldl (fun s p => (s \ p.1.toFinset) ∪ p.2.toFinset) ∅

end Profiles

namespace Profiles

/-- A value stored in the `default_env` dictionary during
`_collapse_env`: a plain string (non-incremental key), the accumulated
token list of an incremental key, or the set produced by incremental
expansion. -/
inductive EnvVal where
  | str (s : String)
  | list (l : List String)
  | fin (s : Finset String)
deriving DecidableEq

/-- Python runtime errors that `_collapse_env` can raise. -/
inductive PyErr where
  | typeError
deriving DecidableEq, Repr

/-- Association-list lookup mirroring Python `dict` access. -/
def dictGet? (d : List (String × α)) (k : String) : Option α :=
  match d with
  | [] => none
  | kv :: rest => if kv.1 = k then some kv.2 else dictGet? rest k

/-- Python `d[k] = v`: replace in place when the key exists, otherwise
append (insertion order preserved, as for Python dicts). -/
def dictSet (d : List (String × α)) (k : String) (v : α) : List (String × α) :=
  match d with
  | [] => [(k, v)]
  | kv :: rest => if kv.1 = k then (k, v) :: rest else kv :: dictSet rest k v

/-- Python `del d[k]`. -/
def dictDel (d : List (String × α)) (k : String) : List (String × α) :=
  match d with
  | [] => []
  | kv :: rest => if kv.1 = k then rest else kv :: dictDel rest k

/-- Python `str.split()` (split on whitespace runs, no empty fields),
on a character list with an accumulator for the current field. -/
def splitWSAux : List Char → List Char → List String
  | [], acc => if acc = [] then [] else [⟨acc.reverse⟩]
  | c :: cs, acc =>
    if c.isWhitespace then
      if acc = [] then splitWSAux cs [] else ⟨acc.reverse⟩ :: splitWSAux cs []
    else splitWSAux cs (c :: acc)

def splitWS (s : String) : List String := splitWSAux s.data []

/-- Modelled from the spec: `incremental_expansion` lives in
`pkgcore.ebuild.misc`, which is not among the sources under
verification.  Per the spec (§4.4): tokens starting with `-` remove
previously accumulated tokens; the special token `-*` clears the set;
other tokens are added.  The result is an unordered set. -/
def incremental_expansion (tokens : List String) : Finset String :=
  tokens.foldl (fun s t =>
    match t.data with
    | '-' :: rest => if rest = ['*'] then ∅ else s.erase ⟨rest⟩
    | _ => insert t s) ∅

/-- First phase of `OnDiskProfile._collapse_env` (`profiles.py` lines
340–348): walk the stack's `default_env` dicts in order; an incremental
key accumulates its whitespace-split value
(`d.setdefault(key, []).extend(val.split())`), any other key is
overwritten.  Incremental keys always hold lists after this phase. -/
def collapseEnvPhase1 (stack : List (List (String × String)))
    (incrementals : List String) : List (String × EnvVal) :=
  stack.foldl (fun d env =>
    env.foldl (fun d kv =>
      if kv.1 ∈ incrementals then
        let cur := match dictGet? d kv.1 with
          | some (.list l) => l
          | _ => []
        dictSet d kv.1 (.list (cur ++ splitWS kv.2))
      else dictSet d kv.1 (.str kv.2)) d) []

/-- Second phase of `_collapse_env` (lines 349–365): for each incremental
key present in `d`, an empty accumulated list hits `del d[val]` — a
deletion keyed by the *value* (an unhashable empty list), raising
`TypeError`; a key in `incrementals_unfinalized` keeps its token list;
otherwise incremental expansion is applied, the key being deleted when
the expansion is empty.  (A non-list value under an incremental key
cannot arise from phase 1 and is left untouched.) -/
def collapseEnvPhase2 (unfinalized : List String) :
    List String → List (String × EnvVal) → Except PyErr (List (String × EnvVal))
  | [], d => .ok d
  | inc :: rest, d =>
    match dictGet? d inc with
    | none => collapseEnvPhase2 unfinalized rest d
    | some (.list l) =>
      if l = [] then .error .typeError
      else if inc ∈ unfinalized then
        collapseEnvPhase2 unfinalized rest (dictSet d inc (.list l))
      else
        let s := incremental_expansion l
        if s = ∅ then collapseEnvPhase2 unfinalized rest (dictDel d inc)
        else collapseEnvPhase2 unfinalized rest (dictSet d inc (.fin s))
    | some _ => collapseEnvPhase2 unfinalized rest d

/-- Embedding of `OnDiskProfile._collapse_env` (lines 340–365). -/
def collapse_env (stack : List (List (String × String)))
    (incrementals unfinalized : List String) : Except PyErr (List (String × EnvVal)) :=
  collapseEnvPhase2 unfinalized incrementals (collapseEnvPhase1 stack incrementals)

end Profiles

namespace Profiles

/-- The on-disk files a `ProfileNode` reads, pre-read: `none` is a
missing file.  `makeDefaults` holds the result of `read_bash_dict`
(external, from snakeoil): either the parsed shell-variable dict or a
parse error message. -/
structure NodeFiles where
  packagesFile : Option (List String)
  virtualsFile : Option (List String)
  masksFile : Option (List String)
  makeDefaults : Option (Except String (List (String × String)))

/-- `CPV.unversioned(x).package` for the virtuals key column
(`pkgcore.ebuild.cpv` is external): the package part after the last
`/`. -/
def cpvPackage (s : String) : String :=
  match (s.data.reverse.takeWhile (· ≠ '/')).reverse with
  | [] => s
  | l => ⟨l⟩

/-- Embedding of `ProfileNode._load_packages` (lines 92–108): dispatch
each line on its `-`/`*` prefixes into the four buckets
`(neg_sys, sys)` / `(neg_vis, vis)`.  A bare `-` line hits `line[1]`
and raises `IndexError` (wrapped into a `ProfileError` by the
decorator); atoms are abstracted as the remaining token text. -/
def loadPackagesLines : List String →
    Except String ((List String × List String) × (List String × List String))
  | [] => .ok (([], []), ([], []))
  | line :: rest =>
    match line.data with
    | ['-'] => .error "string index out of range"
    | '-' :: '*' :: t =>
      (loadPackagesLines rest).map (fun r => ((⟨t⟩ :: r.1.1, r.1.2), r.2))
    | '-' :: t =>
      (loadPackagesLines rest).map (fun r => (r.1, (⟨t⟩ :: r.2.1, r.2.2)))
    | '*' :: t =>
      (loadPackagesLines rest).map (fun r => ((r.1.1, ⟨t⟩ :: r.1.2), r.2))
    | _ =>
      (loadPackagesLines rest).map (fun r => (r.1, (r.2.1, line :: r.2.2)))

/-- Embedding of `ProfileNode._load_virtuals` (lines 122–131): each line
splits into exactly two columns (`ValueError` otherwise);
`d[package] = provider`, processed in file order with last-write-wins. -/
def loadVirtualsAux : List String → List (String × String) → Except String (List (String × String))
  | [], d => .ok d
  | line :: rest, d =>
    match splitWS line with
    | [a, b] => loadVirtualsAux rest (dictSet d (cpvPackage a) b)
    | _ => .error "malformated line"

def loadVirtualsLines (data : List String) : Except String (List (String × String)) :=
  loadVirtualsAux data []


/-- `load_decorator("packages")`-wrapped `_load_packages`. -/
def load_packages (path : String) (f : Option (List String)) :
    Except ProfileError ((List String × List String) × (List String × List String)) :=
  match f with
  | none => .ok (([], []), ([], []))
  | some data =>
    match loadPackagesLines data with
    | .ok r => .ok r
    | .error e => .error ⟨path, "packages", e⟩

/-- `load_decorator("virtuals")`-wrapped `_load_virtuals`. -/
def load_virtuals (path : String) (f : Option (List String)) :
    Except ProfileError (List (String × String)) :=
  match f with
  | none => .ok []
  | some data =>
    match loadVirtualsLines data with
    | .ok r => .ok r
    | .error e => .error ⟨path, "virtuals", e⟩

/-- `_load_default_env` (lines 204–226): a missing `make.defaults` gives
the empty dict; a `read_bash_dict` failure is wrapped into a
`ProfileError`. -/
def load_default_env (path : String)
    (f : Option (Except String (List (String × String)))) :
    Except ProfileError (List (String × String)) :=
  match f with
  | none => .ok []
  | some (.error e) => .error ⟨path, "make.defaults", e⟩
  | some (.ok d) => .ok d

/-- The lazy attributes of `ProfileNode` modelled for the caching state
machine. -/
inductive Attr where
  | system
  | visibility
  | virtuals
  | default_env
  | masks
deriving DecidableEq

/-- Value of a loaded attribute: a `(negations, positives)` pair or a
string dictionary.  (Python returns for `virtuals`/`default_env` the
mutable dict on first load while caching an `ImmutableDict` over the
same entries; the two are equal as values, which is what a shallow
embedding observes.) -/
inductive AttrVal where
  | pair (p : List String × List String)
  | dict (d : List (String × String))
deriving DecidableEq

/-- A `ProfileNode` with its per-attribute caches.  The directory
contents `files` are fixed for the node's lifetime; a cache field is
`none` while the attribute has never been loaded successfully
(a loader that raises caches nothing and the error propagates). -/
structure NodeState where
  path : String
  files : NodeFiles
  systemCache : Option (List String × List String)
  visibilityCache : Option (List String × List String)
  virtualsCache : Option (List (String × String))
  defaultEnvCache : Option (List (String × String))
  masksCache : Option (List String × List String)

/-- Embedding of attribute access through `ProfileNode.__getattr__`
(lines 251–263): a set attribute is returned directly (Python only calls
`__getattr__` on missing attributes); otherwise the `_load_<attr>`
loader runs, caches on success (`_load_packages` fills both `system`
and `visibility`) and returns, or raises leaving the cache untouched. -/
def getAttr (st : NodeState) : Attr → Except ProfileError AttrVal × NodeState
  | .system =>
    match st.systemCache with
    | some v => (.ok (.pair v), st)
    | none =>
      match load_packages st.path st.files.packagesFile with
      | .ok r => (.ok (.pair r.1),
          { st with systemCache := some r.1, visibilityCache := some r.2 })
      | .error e => (.error e, st)
  | .visibility =>
    match st.visibilityCache with
    | some v => (.ok (.pair v), st)
    | none =>
      match load_packages st.path st.files.packagesFile with
      | .ok r => (.ok (.pair r.2),
          { st with systemCache := some r.1, visibilityCache := some r.2 })
      | .error e => (.error e, st)
  | .virtuals =>
    match st.virtualsCache with
    | some v => (.ok (.dict v), st)
    | none =>
      match load_virtuals st.path st.files.virtualsFile with
      | .ok d => (.ok (.dict d), { st with virtualsCache := some d })
      | .error e => (.error e, st)
  | .default_env =>
    match st.defaultEnvCache with
    | some v => (.ok (.dict v), st)
    | none =>
      match load_default_env st.path st.files.makeDefaults with
      | .ok d => (.ok (.dict d), { st with defaultEnvCache := some d })
      | .error e => (.error e, st)
  | .masks =>
    match st.masksCache with
    | some v => (.ok (.pair v), st)
    | none =>
      match load_masks st.path st.files.masksFile with
      | .ok r => (.ok (.pair r), { st with masksCache := some r })
      | .error e => (.error e, st)

end Profiles


namespace PkgUpdates

/-- C6, counterexample: the claim restricts processed file names to
`^[1-4]Q-\d{4}$`, but the source's regexp is `^(\d)Q-(\d{4})$`; the file
`5Q-2020` does not match the claimed pattern yet is scanned and
processed. -/
theorem scan_directory_quarter_counterexample :
    scanDirectory ["5Q-2020"] = ["5Q-2020"] ∧ specQuarterMatch "5Q-2020" = false := by
  constructor
  · rfl
  · decide

/-- C6 (amended): `read_updates` processes exactly the files in the
directory whose names match `^\dQ-\d{4}$` (any digit is accepted as the
quarter), sorted ascending by the `(year, quarter)` string pair. -/
theorem scan_directory_files_and_order (names : List String) :
    (∀ x, x ∈ scanDirectory names ↔ x ∈ names ∧ (validUpdatesMatch x).isSome) ∧
    (scanDirectory names).Pairwise (fun a b => toLex (scanKey a) ≤ toLex (scanKey b)) :=
  ⟨mem_scanDirectory names, sorted_scanDirectory names⟩

end PkgUpdates

namespace Profiles

theorem split_negations_dash (func : String → α) (data : List String)
    (h : "-" ∈ data) :
    split_negations func data = .error "'-' negation without a token" := by
  induction data with
  | nil => cases h
  | cons line rest ih =>
    rcases List.mem_cons.mp h with h1 | h2
    · subst h1
      rfl
    · have hr := ih h2
      cases hd : line.data with
      | nil => simp [split_negations, hd, hr, Except.map]
      | cons c cs =>
        by_cases hc : c = '-'
        · subst hc
          cases cs with
          | nil => simp [split_negations, hd]
          | cons c2 cs2 => simp [split_negations, hd, hr, Except.map]
        · simp [split_negations, hd, hr, hc, Except.map]

/-- C4, counterexample: a `package.mask` file containing a bare `-` line
is not loaded with a logged warning; `split_negations` raises
`ValueError`, which `load_decorator` wraps in a `ProfileError`, aborting
the load. -/
theorem load_masks_dash_counterexample :
    load_masks "prof" (some ["a", "-", "b"]) =
      Except.error ⟨"prof", "package.mask", "'-' negation without a token"⟩ := by
  rfl

/-- C4 (amended): for every profile list-style file, a line consisting of
a bare `-` raises `ValueError("'-' negation without a token")`, which the
loading decorator wraps into a `ProfileError` naming the file: the load
is aborted rather than completing with a warning. -/
theorem load_masks_dash_aborts (path : String) (data : List String)
    (h : "-" ∈ data) :
    load_masks path (some data) =
      Except.error ⟨path, "package.mask", "'-' negation without a token"⟩ := by
  simp only [load_masks, split_negations_dash id data h]

theorem load_masks_dash_aborts_witness :
    ("-" ∈ ["a", "-"]) ∧
    load_masks "p" (some ["a", "-"]) =
      Except.error ⟨"p", "package.mask", "'-' negation without a token"⟩ :=
  ⟨by decide, load_masks_dash_aborts "p" ["a", "-"] (by decide)⟩

theorem collapse_generic_eq_specPairFold [DecidableEq α] (stack : List (PNode α))
    (get : PNode α → List α × List α) :
    collapse_generic stack get = specPairFold (stack.map get) := by
  unfold collapse_generic specPairFold
  rw [List.foldl_map]

theorem specPairFold_all_empty [DecidableEq α] (pairs : List (List α × List α))
    (h : ∀ p ∈ pairs, p = ([], [])) : specPairFold pairs = ∅ := by
  have aux : ∀ l : List (List α × List α), (∀ p ∈ l, p = ([], [])) → ∀ s : Finset α,
      l.foldl (fun s p => (s \ p.1.toFinset) ∪ p.2.toFinset) s = s := by
    intro l
    induction l with
    | nil => intro _ s; rfl
    | cons p rest ih =>
      intro hl s
      have hp : p = ([], []) := hl p (List.mem_cons_self p rest)
      subst hp
      simpa using ih (fun q hq => hl q (List.mem_cons_of_mem _ hq)) s
  exact aux pairs h ∅

/-- C2 (amended): for `system` and `pkg_provided` the collapsed value is
exactly the spec's fold `S := (S \ neg) ∪ pos` over the stack's pairs;
the collapsed `masks` attribute is the union of that fold over the
`masks` pairs and over the `visibility` pairs (not the plain fold over
the `masks` pairs); if every node's pairs are empty all collapsed values
are the empty set. -/
theorem collapsed_pair_attributes [DecidableEq α] (stack : List (PNode α)) :
    collapse_generic stack PNode.system = specPairFold (stack.map PNode.system) ∧
    collapse_generic stack PNode.pkg_provided = specPairFold (stack.map PNode.pkg_provided) ∧
    collapse_masks stack =
      specPairFold (stack.map PNode.masks) ∪ specPairFold (stack.map PNode.visibility) ∧
    ((∀ n ∈ stack, n.system = ([], []) ∧ n.visibility = ([], []) ∧
        n.masks = ([], []) ∧ n.pkg_provided = ([], [])) →
      collapse_generic stack PNode.system = ∅ ∧
      collapse_generic stack PNode.pkg_provided = ∅ ∧ collapse_masks stack = ∅) := by
  refine ⟨collapse_generic_eq_specPairFold stack _, collapse_generic_eq_specPairFold stack _,
    ?_, ?_⟩
  · unfold collapse_masks
    rw [collapse_generic_eq_specPairFold stack PNode.masks,
      collapse_generic_eq_specPairFold stack PNode.visibility]
  · intro h
    refine ⟨?_, ?_, ?_⟩
    · rw [collapse_generic_eq_specPairFold]
      exact specPairFold_all_empty _ (by
        intro p hp
        obtain ⟨n, hn, rfl⟩ := List.mem_map.mp hp
        exact (h n hn).1)
    · rw [collapse_generic_eq_specPairFold]
      exact specPairFold_all_empty _ (by
        intro p hp
        obtain ⟨n, hn, rfl⟩ := List.mem_map.mp hp
        exact (h n hn).2.2.2)
    · unfold collapse_masks
      rw [collapse_generic_eq_specPairFold stack PNode.masks,
        collapse_generic_eq_specPairFold stack PNode.visibility,
        specPairFold_all_empty _ (fun p hp => by
          obtain ⟨n, hn, rfl⟩ := List.mem_map.mp hp
          exact (h n hn).2.2.1),
        specPairFold_all_empty _ (fun p hp => by
          obtain ⟨n, hn, rfl⟩ := List.mem_map.mp hp
          exact (h n hn).2.1)]
      simp

theorem collapsed_pair_attributes_witness :
    collapse_masks ([⟨([], []), ([], []), ([], []), ([], [])⟩] : List (PNode Nat)) = ∅ :=
  ((collapsed_pair_attributes [⟨([], []), ([], []), ([], []), ([], [])⟩]).2.2.2
    (by intro n hn; simp at hn; subst hn; exact ⟨rfl, rfl, rfl, rfl⟩)).2.2

/-- C2, counterexample: with a single node whose `visibility` positives
are `{0}` and all other pairs empty, the collapsed `masks` attribute is
`{0}` while the spec's fold over the stack's `masks` pairs is empty, so
the collapsed `masks` value does not equal the fold of the `masks`
pairs. -/
theorem collapse_masks_counterexample :
    collapse_masks ([⟨([], []), ([], [0]), ([], []), ([], [])⟩] : List (PNode Nat)) = {0} ∧
    specPairFold (([⟨([], []), ([], [0]), ([], []), ([], [])⟩] :
      List (PNode Nat)).map PNode.masks) = ∅ ∧
    collapse_masks ([⟨([], []), ([], [0]), ([], []), ([], [])⟩] : List (PNode Nat)) ≠
      specPairFold (([⟨([], []), ([], [0]), ([], []), ([], [])⟩] :
        List (PNode Nat)).map PNode.masks) := by
  refine ⟨by decide, by decide, by decide⟩

/-- C5: collapsing `default_env` over a stack contributing an incremental
key whose accumulated token list is empty does not delete the key and
return; the source's `del d[val]` deletes by the (unhashable)
value and raises `TypeError`.  Here the single profile's `make.defaults`
sets the incremental `USE` to the empty string. -/
theorem collapse_env_empty_incremental_raises :
    collapse_env [[("USE", "")]] ["USE"] [] = Except.error PyErr.typeError := by
  rfl

end Profiles

namespace Profiles

/-- C7: for every `ProfileNode` state and every lazy attribute, reading
the attribute a second time returns the same value as the first read and
leaves the node state unchanged: the first successful access computes
and caches, subsequent accesses return the cached value; a failing load
caches nothing, and rereading deterministically reproduces the same
error from the unchanged file contents. -/
theorem profile_node_lazy_attr_cached (st : NodeState) (a : Attr) :
    (getAttr (getAttr st a).2 a).1 = (getAttr st a).1 ∧
    (getAttr (getAttr st a).2 a).2 = (getAttr st a).2 := by
  cases a with
  | system =>
    cases hc : st.systemCache with
    | some v => simp [getAttr, hc]
    | none =>
      cases hl : load_packages st.path st.files.packagesFile with
      | ok r => simp [getAttr, hc, hl]
      | error e => simp [getAttr, hc, hl]
  | visibility =>
    cases hc : st.visibilityCache with
    | some v => simp [getAttr, hc]
    | none =>
      cases hl : load_packages st.path st.files.packagesFile with
      | ok r => simp [getAttr, hc, hl]
      | error e => simp [getAttr, hc, hl]
  | virtuals =>
    cases hc : st.virtualsCache with
    | some v => simp [getAttr, hc]
    | none =>
      cases hl : load_virtuals st.path st.files.virtualsFile with
      | ok r => simp [getAttr, hc, hl]
      | error e => simp [getAttr, hc, hl]
  | default_env =>
    cases hc : st.defaultEnvCache with
    | some v => simp [getAttr, hc]
    | none =>
      cases hl : load_default_env st.path st.files.makeDefaults with
      | ok r => simp [getAttr, hc, hl]
      | error e => simp [getAttr, hc, hl]
  | masks =>
    cases hc : st.masksCache with
    | some v => simp [getAttr, hc]
    | none =>
      cases hl : load_masks st.path st.files.masksFile with
      | ok r => simp [getAttr, hc, hl]
      | error e => simp [getAttr, hc, hl]

end Profiles

namespace Repo

/-- Outcome of the metadata evaluation `_pkg_filter` performs inside its
`try` block (`repository.py` lines 528–548): `pkg.is_supported` false,
a `MetadataException` raised by `pkg.is_supported`/`pkg.data`/
`pkg.required_use`, a `FileNotFoundError`, or success. -/
inductive MetaCheck where
  | ok
  | unsupported (eapi : String)
  | metaExc (field reason : String)
  | fileMissing
deriving DecidableEq, Repr

/-- A candidate package of one iteration, identified by its CPV (an
abstract number; `_masked.itermatch(pkg.versioned_atom)` membership is
exactly CPV equality) together with its metadata evaluation result. -/
structure Pkg where
  cpv : Nat
  check : MetaCheck
deriving DecidableEq, Repr

/-- A `MetadataException(pkg, field, reason)` entry of the repo-local
`_masked` restriction repo. -/
structure MetadataExc where
  cpv : Nat
  field : String
  reason : String
deriving DecidableEq, Repr

/-- `pkg in self._masked.itermatch(pkg.versioned_atom)`. -/
def maskedContains (masked : List MetadataExc) (c : Nat) : Bool :=
  masked.any (·.cpv = c)

/-- The `MetadataException` `_pkg_filter` records for a failing package:
unsupported EAPI gives field `eapi`, a raised `MetadataException` is
stored as-is, `FileNotFoundError` gives `('data', 'mismatched package
name')`; `none` for a package with good metadata. -/
def maskFor (p : Pkg) : Option MetadataExc :=
  match p.check with
  | .ok => none
  | .unsupported e => some ⟨p.cpv, "eapi", "EAPI " ++ e ++ " is not supported"⟩
  | .metaExc f r => some ⟨p.cpv, f, r⟩
  | .fileMissing => some ⟨p.cpv, "data", "mismatched package name"⟩

/-- Embedding of `UnconfiguredTree._pkg_filter` (lines 528–548), the
filter `itermatch` installs by default (lines 550–552): skip packages
already in `_masked`; a package whose metadata evaluation fails is added
to `_masked` and not yielded; good packages are yielded.  Returns the
final `_masked` state and the yielded packages in order. -/
def pkg_filter : List MetadataExc → List Pkg → List MetadataExc × List Pkg
  | masked, [] => (masked, [])
  | masked, p :: rest =>
    if maskedContains masked p.cpv then pkg_filter masked rest
    else
      match maskFor p with
      | some e => pkg_filter (masked ++ [e]) rest
      | none =>
        let r := pkg_filter masked rest
        (r.1, p :: r.2)

theorem pkg_filter_masked_mono (masked : List MetadataExc) (pkgs : List Pkg)
    (e : MetadataExc) (he : e ∈ masked) : e ∈ (pkg_filter masked pkgs).1 := by
  induction pkgs generalizing masked with
  | nil => exact he
  | cons p rest ih =>
    unfold pkg_filter
    by_cases hm : maskedContains masked p.cpv
    · simp only [hm, if_true]
      exact ih masked he
    · simp only [hm, if_false]
      cases hf : maskFor p with
      | some ex => exact ih (masked ++ [ex]) (List.mem_append_left _ he)
      | none => exact ih masked he


theorem maskFor_eq_none_iff (p : Pkg) : maskFor p = none ↔ p.check = .ok := by
  unfold maskFor
  cases p.check <;> simp

theorem maskFor_cpv (p : Pkg) (e : MetadataExc) (h : maskFor p = some e) :
    e.cpv = p.cpv := by
  unfold maskFor at h
  cases hc : p.check <;> rw [hc] at h <;> simp_all <;> subst h <;> rfl

theorem maskedContains_iff (masked : List MetadataExc) (c : Nat) :
    maskedContains masked c = true ↔ ∃ e ∈ masked, e.cpv = c := by
  unfold maskedContains
  rw [List.any_eq_true]
  constructor
  · rintro ⟨e, he, hc⟩
    exact ⟨e, he, by simpa using hc⟩
  · rintro ⟨e, he, hc⟩
    exact ⟨e, he, by simpa using hc⟩

theorem pkg_filter_bad_masked (masked : List MetadataExc) (pkgs : List Pkg)
    (p : Pkg) (hp : p ∈ pkgs) (hbad : p.check ≠ .ok) :
    ∃ e ∈ (pkg_filter masked pkgs).1, e.cpv = p.cpv := by
  induction pkgs generalizing masked with
  | nil => cases hp
  | cons q rest ih =>
    unfold pkg_filter
    rcases List.mem_cons.mp hp with rfl | hp'
    · by_cases hm : maskedContains masked p.cpv
      · simp only [hm, if_true]
        obtain ⟨e, he, hcpv⟩ := (maskedContains_iff masked p.cpv).mp hm
        exact ⟨e, pkg_filter_masked_mono masked rest e he, hcpv⟩
      · simp only [hm, if_false]
        cases hf : maskFor p with
        | some e =>
          exact ⟨e, pkg_filter_masked_mono _ rest e (List.mem_append_right _ (by simp)),
            maskFor_cpv p e hf⟩
        | none => exact absurd ((maskFor_eq_none_iff p).mp hf) hbad
    · by_cases hm : maskedContains masked q.cpv
      · simp only [hm, if_true]
        exact ih masked hp'
      · simp only [hm, if_false]
        cases hf : maskFor q with
        | some e => exact ih (masked ++ [e]) hp'
        | none => exact ih masked hp'

theorem pkg_filter_output_ok (masked : List MetadataExc) (pkgs : List Pkg) :
    ∀ q ∈ (pkg_filter masked pkgs).2, q ∈ pkgs ∧ q.check = .ok := by
  induction pkgs generalizing masked with
  | nil => intro q hq; cases hq
  | cons p rest ih =>
    intro q hq
    unfold pkg_filter at hq
    by_cases hm : maskedContains masked p.cpv
    · simp only [hm, if_true] at hq
      exact ⟨List.mem_cons_of_mem _ (ih masked q hq).1, (ih masked q hq).2⟩
    · simp only [hm, if_false] at hq
      cases hf : maskFor p with
      | some e =>
        rw [hf] at hq
        exact ⟨List.mem_cons_of_mem _ (ih (masked ++ [e]) q hq).1, (ih (masked ++ [e]) q hq).2⟩
      | none =>
        rw [hf] at hq
        rcases List.mem_cons.mp hq with rfl | hq'
        · exact ⟨List.mem_cons_self _ _, (maskFor_eq_none_iff q).mp hf⟩
        · exact ⟨List.mem_cons_of_mem _ (ih masked q hq').1, (ih masked q hq').2⟩

theorem pkg_filter_masked_excluded (masked : List MetadataExc) (pkgs : List Pkg)
    (q : Pkg) (hq : maskedContains masked q.cpv = true) :
    q ∉ (pkg_filter masked pkgs).2 := by
  induction pkgs generalizing masked with
  | nil => intro h; cases h
  | cons p rest ih =>
    intro h
    unfold pkg_filter at h
    by_cases hm : maskedContains masked p.cpv
    · simp only [hm, if_true] at h
      exact ih masked hq h
    · simp only [hm, if_false] at h
      cases hf : maskFor p with
      | some e =>
        rw [hf] at h
        refine ih (masked ++ [e]) ?_ h
        rw [maskedContains_iff] at hq ⊢
        obtain ⟨x, hx, hxc⟩ := hq
        exact ⟨x, List.mem_append_left _ hx, hxc⟩
      | none =>
        rw [hf] at h
        rcases List.mem_cons.mp h with rfl | h'
        · exact hm hq
        · exact ih masked hq h'

theorem pkg_filter_ok_yielded (masked : List MetadataExc) (pkgs : List Pkg)
    (hnd : (pkgs.map Pkg.cpv).Nodup) :
    ∀ q ∈ pkgs, q.check = .ok → maskedContains masked q.cpv = false →
      q ∈ (pkg_filter masked pkgs).2 := by
  induction pkgs generalizing masked with
  | nil => intro q hq; cases hq
  | cons p rest ih =>
    intro q hq hok hnm
    have hnd' : (rest.map Pkg.cpv).Nodup := (List.nodup_cons.mp hnd).2
    have hns : p.cpv ∉ rest.map Pkg.cpv := (List.nodup_cons.mp hnd).1
    unfold pkg_filter
    rcases List.mem_cons.mp hq with rfl | hq'
    · rw [hnm, if_neg (by simp)]
      rw [(maskFor_eq_none_iff q).mpr hok]
      exact List.mem_cons_self _ _
    · by_cases hm : maskedContains masked p.cpv
      · simp only [hm, if_true]
        exact ih masked hnd' q hq' hok hnm
      · simp only [hm, if_false]
        cases hf : maskFor p with
        | some e =>
          refine ih (masked ++ [e]) hnd' q hq' hok ?_
          have hqp : q.cpv ≠ p.cpv := by
            intro hcontra
            exact hns (hcontra ▸ List.mem_map_of_mem Pkg.cpv hq')
          rw [Bool.eq_false_iff]
          intro habs
          obtain ⟨x, hx, hxc⟩ := (maskedContains_iff _ _).mp habs
          rcases List.mem_append.mp hx with hx1 | hx2
          · rw [Bool.eq_false_iff] at hnm
            exact hnm ((maskedContains_iff _ _).mpr ⟨x, hx1, hxc⟩)
          · simp only [List.mem_singleton] at hx2
            subst hx2
            exact hqp (hxc ▸ (maskFor_cpv p x hf).symm ▸ rfl)
        | none =>
          exact List.mem_cons_of_mem _ (ih masked hnd' q hq' hok hnm)

/-- C3: a package whose metadata evaluation fails (a raised metadata
error, an unsupported EAPI, or a missing ebuild file) is recorded in the
repo's `_masked` set with a `MetadataException` carrying its CPV, is not
yielded by that iteration, is excluded (by CPV) from every subsequent
iteration run with the resulting `_masked` state, and the iteration
itself continues: every other package with good metadata and an
unmasked CPV is still yielded (CPVs of one iteration are distinct). -/
theorem pkg_filter_metadata_error_behaviour (masked : List MetadataExc)
    (pkgs : List Pkg) (p : Pkg) (hp : p ∈ pkgs) (hbad : p.check ≠ .ok) :
    (∃ e ∈ (pkg_filter masked pkgs).1, e.cpv = p.cpv) ∧
    p ∉ (pkg_filter masked pkgs).2 ∧
    (∀ pkgs' q, q.cpv = p.cpv → q ∉ (pkg_filter (pkg_filter masked pkgs).1 pkgs').2) ∧
    ((pkgs.map Pkg.cpv).Nodup →
      ∀ q ∈ pkgs, q ≠ p → q.check = .ok → maskedContains masked q.cpv = false →
        q ∈ (pkg_filter masked pkgs).2) := by
  refine ⟨pkg_filter_bad_masked masked pkgs p hp hbad, ?_, ?_, ?_⟩
  · intro habs
    exact hbad (pkg_filter_output_ok masked pkgs p habs).2
  · intro pkgs' q hq
    obtain ⟨e, he, hec⟩ := pkg_filter_bad_masked masked pkgs p hp hbad
    refine pkg_filter_masked_excluded _ pkgs' q ?_
    exact (maskedContains_iff _ _).mpr ⟨e, he, by rw [hec, hq]⟩
  · intro hnd q hq _ hok hnm
    exact pkg_filter_ok_yielded masked pkgs hnd q hq hok hnm

theorem pkg_filter_metadata_error_behaviour_witness :
    (⟨1, .metaExc "depend" "parse failure"⟩ : Pkg) ∈
      [⟨0, .ok⟩, ⟨1, .metaExc "depend" "parse failure"⟩, (⟨2, .ok⟩ : Pkg)] ∧
    (⟨1, .metaExc "depend" "parse failure"⟩ : Pkg).check ≠ .ok ∧
    (∃ e ∈ (pkg_filter []
        [⟨0, .ok⟩, ⟨1, .metaExc "depend" "parse failure"⟩, (⟨2, .ok⟩ : Pkg)]).1,
      e.cpv = 1) ∧
    (⟨1, .metaExc "depend" "parse failure"⟩ : Pkg) ∉ (pkg_filter []
        [⟨0, .ok⟩, ⟨1, .metaExc "depend" "parse failure"⟩, (⟨2, .ok⟩ : Pkg)]).2 ∧
    (⟨2, .ok⟩ : Pkg) ∈ (pkg_filter []
        [⟨0, .ok⟩, ⟨1, .metaExc "depend" "parse failure"⟩, (⟨2, .ok⟩ : Pkg)]).2 := by
  have h := pkg_filter_metadata_error_behaviour []
    [⟨0, .ok⟩, ⟨1, .metaExc "depend" "parse failure"⟩, (⟨2, .ok⟩ : Pkg)]
    ⟨1, .metaExc "depend" "parse failure"⟩ (by decide) (by decide)
  refine ⟨by decide, by decide, h.1, h.2.1, ?_⟩
  exact h.2.2.2 (by decide) ⟨2, .ok⟩ (by decide) (by decide) (by decide) (by decide)

end Repo

namespace AgentRPC

/-- `struct.pack('>L', n)` (`agentrpc.py` line 25): four big-endian
bytes; `struct.error` (here `none`) when `n` does not fit 32 bits. -/
def pack32 (n : Nat) : Option (List Nat) :=
  if n < 2 ^ 32 then
    some [n / 2 ^ 24 % 256, n / 2 ^ 16 % 256, n / 2 ^ 8 % 256, n % 256]
  else none

/-- `struct.unpack('>L', bs)` (line 19): requires exactly four bytes. -/
def unpack32 (bs : List Nat) : Option Nat :=
  match bs with
  | [a, b, c, d] => some (((a * 256 + b) * 256 + c) * 256 + d)
  | _ => none

/-- One direction of a pipe carrying bytes; `os.write` appends,
`os.read(fd, n)` returns up to `n` available bytes. -/
structure Pipe where
  buf : List Nat
deriving DecidableEq, Repr

def osWrite (p : Pipe) (bs : List Nat) : Pipe := ⟨p.buf ++ bs⟩

def osRead (p : Pipe) (n : Nat) : List Nat × Pipe := (p.buf.take n, ⟨p.buf.drop n⟩)

/-- `JsonRPC.write(val)` (lines 23–27): serialize (`json.dumps` composed
with UTF-8 encoding is external and abstracted as the byte encoder
`dumps`), write the 4-byte big-endian length, then the payload. -/
def jsonRpcWrite (dumps : V → List Nat) (p : Pipe) (v : V) : Option Pipe :=
  match pack32 (dumps v).length with
  | none => none
  | some szs => some (osWrite (osWrite p szs) (dumps v))

/-- `JsonRPC.read()` (lines 17–21): read 4 bytes, unpack the length,
read that many bytes and decode (`json.loads` abstracted as `loads`;
`none` is a raised `ValueError`). -/
def jsonRpcRead (loads : List Nat → Option V) (p : Pipe) : Option (V × Pipe) :=
  let r4 := osRead p 4
  match unpack32 r4.1 with
  | none => none
  | some sz =>
    let rs := osRead r4.2 sz
    match loads rs.1 with
    | none => none
    | some v => some (v, rs.2)

theorem unpack32_pack32 (n : Nat) (h : n < 2 ^ 32) :
    unpack32 [n / 2 ^ 24 % 256, n / 2 ^ 16 % 256, n / 2 ^ 8 % 256, n % 256] = some n := by
  show some ((((n / 2 ^ 24 % 256) * 256 + n / 2 ^ 16 % 256) * 256 + n / 2 ^ 8 % 256) * 256
    + n % 256) = some n
  rw [Option.some.injEq]
  omega

/-- C10: writing a value over a pipe with `JsonRPC.write` and reading
it back with `JsonRPC.read` returns the value, provided the
serialization round-trips (the contract of the external `json` module)
and the encoding is at most `2^32 - 1` bytes, so that the 4-byte length
prefix frames it exactly. -/
theorem json_rpc_roundtrip (dumps : V → List Nat) (loads : List Nat → Option V)
    (v : V) (hcodec : loads (dumps v) = some v)
    (hlen : (dumps v).length ≤ 2 ^ 32 - 1) :
    ∃ p, jsonRpcWrite dumps ⟨[]⟩ v = some p ∧
      jsonRpcRead loads p = some (v, ⟨[]⟩) := by
  have hlt : (dumps v).length < 2 ^ 32 := by omega
  set n := (dumps v).length with hn
  refine ⟨⟨[n / 2 ^ 24 % 256, n / 2 ^ 16 % 256, n / 2 ^ 8 % 256, n % 256] ++ dumps v⟩, ?_, ?_⟩
  · unfold jsonRpcWrite pack32
    rw [if_pos hlt]
    rfl
  · unfold jsonRpcRead osRead
    have htake : ([n / 2 ^ 24 % 256, n / 2 ^ 16 % 256, n / 2 ^ 8 % 256, n % 256]
        ++ dumps v).take 4 = [n / 2 ^ 24 % 256, n / 2 ^ 16 % 256, n / 2 ^ 8 % 256, n % 256] := by
      rw [show (4 : Nat) = ([n / 2 ^ 24 % 256, n / 2 ^ 16 % 256, n / 2 ^ 8 % 256,
        n % 256] : List Nat).length from rfl, List.take_left]
    have hdrop : ([n / 2 ^ 24 % 256, n / 2 ^ 16 % 256, n / 2 ^ 8 % 256, n % 256]
        ++ dumps v).drop 4 = dumps v := by
      rw [show (4 : Nat) = ([n / 2 ^ 24 % 256, n / 2 ^ 16 % 256, n / 2 ^ 8 % 256,
        n % 256] : List Nat).length from rfl, List.drop_left]
    simp only [htake, hdrop, unpack32_pack32 n hlt]
    rw [List.take_of_length_le (le_of_eq hn.symm), List.drop_of_length_le (le_of_eq hn.symm)]
    rw [hcodec]

/-- A trivial concrete serialization (unary) witnessing that the
round-trip hypotheses are satisfiable. -/
def unaryDumps (n : Nat) : List Nat := List.replicate n 7

def unaryLoads (l : List Nat) : Option Nat := some l.length

theorem json_rpc_roundtrip_witness :
    unaryLoads (unaryDumps 3) = some 3 ∧ (unaryDumps 3).length ≤ 2 ^ 32 - 1 ∧
    ∃ p, jsonRpcWrite unaryDumps ⟨[]⟩ 3 = some p ∧
      jsonRpcRead unaryLoads p = some (3, ⟨[]⟩) := by
  refine ⟨by decide, by decide, json_rpc_roundtrip unaryDumps unaryLoads 3 (by decide) (by decide)⟩

end AgentRPC

namespace AgentRPC

/-- A JSON value as far as `agent_rpc_call` observes one: the scalar
values it compares (`'success'`, `'failure'`) are strings; other scalars
and composite values are only tested for equality, so composites are
abstracted by their serialized text. -/
inductive JV where
  | jstr (s : String)
  | jint (n : Int)
  | jbool (b : Bool)
  | jnull
  | jcomp (text : String)
deriving DecidableEq, Repr

/-- What `rpc.read()` produced for the reply: a JSON decode failure
(`ValueError`), a decoded non-object value, or a decoded JSON object. -/
inductive ReplyInput where
  | decodeError
  | nonObject (v : JV)
  | obj (d : List (String × JV))
deriving DecidableEq, Repr

/-- The exceptions `agent_rpc_call` can raise: `GenericBuildError`, or
uncaught Python errors (`KeyError` from `repl['status']` on line 48,
`TypeError` from indexing a non-dict or from a wrong `JsonRPC` arity,
`ValueError` from `int()` on a malformed fd token). -/
inductive CallError where
  | genericBuildError
  | keyError
  | typeError
  | valueError
deriving DecidableEq, Repr

def digitsVal (ds : List Char) : Nat :=
  ds.foldl (fun a c => a * 10 + (c.toNat - 48)) 0

/-- Python `int(token)` on a whitespace-free token: optional minus sign
followed by decimal digits (`ValueError`, i.e. `none`, otherwise). -/
def parsePyInt (s : String) : Option Int :=
  match s.data with
  | [] => none
  | '-' :: ds =>
    if ds ≠ [] ∧ ds.all Char.isDigit then some (-(digitsVal ds : Int)) else none
  | ds => if ds.all Char.isDigit then some ((digitsVal ds : Int)) else none

/-- The echo check of `agent_rpc_call` (lines 42–43): after deleting
`status`, every remaining request field must be present in the reply
with an equal value (a missing key raises `KeyError`, a differing value
`AssertionError`; both are caught and give `GenericBuildError`). -/
def echoOk (req : List (String × JV)) (repl : List (String × JV)) : Bool :=
  req.all (fun kv => Profiles.dictGet? repl kv.1 = some kv.2)

/-- The status check of lines 48–54, `none` when `repl` has no
`status` key at all (in which case line 48 raises an uncaught
`KeyError`): `some true` when the reply is accepted (status `success`,
or status `failure` with an `error` field), `some false` when it is
rejected with `GenericBuildError`. -/
def statusOk (repl : List (String × JV)) : Option Bool :=
  match Profiles.dictGet? repl "status" with
  | none => none
  | some sv =>
    some (sv = .jstr "success" ∨ (sv = .jstr "failure" ∧ (Profiles.dictGet? repl "error").isSome))

/-- Embedding of `agent_rpc_call` (`agentrpc.py` lines 30–56):
`GenericBuildError` when the `CB_AGENT_RPC_FDS` variable is absent;
`int()` parsing of the fd list (`ValueError` on bad tokens, `TypeError`
when `JsonRPC(*fds)` does not get exactly two); the request is written
and the reply read inside a `try` whose `except (KeyError, ValueError,
AssertionError)` maps to `GenericBuildError`: a JSON decode failure, a
missing `status` key in the *request* (`del request['status']`), a
missing or differing echoed field.  Indexing a non-object reply raises
an uncaught `TypeError`; a reply object without `status` raises an
uncaught `KeyError` on line 48 (outside the `try`); a reply whose
`status` is neither `success` nor a `failure` carrying `error` is a
`GenericBuildError`; otherwise the reply is returned. -/
def agent_rpc_call (env : Option String) (reply : ReplyInput)
    (request : List (String × JV)) : Except CallError (List (String × JV)) :=
  match env with
  | none => .error .genericBuildError
  | some envStr =>
    match (Profiles.splitWS envStr).mapM parsePyInt with
    | none => .error .valueError
    | some fds =>
      if fds.length = 2 then
        match reply with
        | .decodeError => .error .genericBuildError
        | .nonObject _ =>
          if (Profiles.dictGet? request "status").isSome then .error .typeError
          else .error .genericBuildError
        | .obj repl =>
          if (Profiles.dictGet? request "status").isSome then
            if echoOk (Profiles.dictDel request "status") repl then
              match Profiles.dictGet? repl "status" with
              | none => .error .keyError
              | some sv =>
                if sv = .jstr "success" then .ok repl
                else if sv = .jstr "failure" ∧ (Profiles.dictGet? repl "error").isSome then
                  .ok repl
                else .error .genericBuildError
            else .error .genericBuildError
          else .error .genericBuildError
      else .error .typeError

/-- The claim's notion of a malformed reply, written from the spec's
words: a reply that fails to decode or is not an object, an echoed
request field that differs (or is missing), or a non-`success` reply
that lacks a recognized `status`/`error` field. -/
def claimMalformedReply (request : List (String × JV)) (reply : ReplyInput) : Bool :=
  match reply with
  | .decodeError => true
  | .nonObject _ => true
  | .obj repl =>
    (!(echoOk request repl)) ||
      (match Profiles.dictGet? repl "status" with
       | some (.jstr "success") => false
       | some (.jstr "failure") => !(Profiles.dictGet? repl "error").isSome
       | _ => true)

/-- C8, counterexample: with the fd environment present and well-formed,
a request without a `status` field and a perfectly well-formed reply
(`{"status": "success"}`, echoing every request field), the call still
raises `GenericBuildError` — `del request['status']` raises a `KeyError`
that the `except` clause converts — although the environment variable is
present and the reply is not malformed in the claim's sense. -/
theorem agent_rpc_call_counterexample :
    agent_rpc_call (some "3 4") (.obj [("status", .jstr "success")]) [] =
      .error .genericBuildError ∧
    claimMalformedReply [] (.obj [("status", .jstr "success")]) = false := by
  exact ⟨rfl, rfl⟩

end AgentRPC

namespace AgentRPC

/-- C8 (amended): with the fd handoff variable present and well-formed,
`GenericBuildError` is raised exactly when the reply fails to decode,
the *request* lacks a `status` field (the `del request['status']`
`KeyError` is caught by the same `except` clause), an echoed request
field is missing from or differs in the reply object, or the reply
object's `status` is present but neither `success` nor `failure`
accompanied by an `error` field.  A reply object passing the echo check
but lacking `status` raises an uncaught `KeyError` instead, and a
well-formed reply is returned; a missing environment variable is a
`GenericBuildError`. -/
theorem agent_rpc_call_error_characterization (envStr : String) (fds : List Int)
    (reply : ReplyInput) (request : List (String × JV))
    (hfds : (Profiles.splitWS envStr).mapM parsePyInt = some fds)
    (hlen : fds.length = 2) :
    (agent_rpc_call none reply request = .error .genericBuildError) ∧
    (agent_rpc_call (some envStr) reply request = .error .genericBuildError ↔
      (reply = .decodeError ∨ (Profiles.dictGet? request "status").isSome = false ∨
        (∃ repl, reply = .obj repl ∧
          (echoOk (Profiles.dictDel request "status") repl = false ∨
            (echoOk (Profiles.dictDel request "status") repl = true ∧
              statusOk repl = some false))))) ∧
    (∀ repl, reply = .obj repl → (Profiles.dictGet? request "status").isSome = true →
      echoOk (Profiles.dictDel request "status") repl = true →
      statusOk repl = some true →
      agent_rpc_call (some envStr) reply request = .ok repl) ∧
    (∀ repl, reply = .obj repl → (Profiles.dictGet? request "status").isSome = true →
      echoOk (Profiles.dictDel request "status") repl = true →
      Profiles.dictGet? repl "status" = none →
      agent_rpc_call (some envStr) reply request = .error .keyError) := by
  refine ⟨rfl, ?_, ?_, ?_⟩
  · simp only [agent_rpc_call, hfds]
    rw [if_pos hlen]
    cases reply with
    | decodeError => simp
    | nonObject v =>
      cases hs : (Profiles.dictGet? request "status").isSome with
      | true => simp [hs]
      | false => simp [hs]
    | obj repl =>
      cases hs : (Profiles.dictGet? request "status").isSome with
      | false => simp [hs]
      | true =>
        simp only [hs, if_true]
        cases he : echoOk (Profiles.dictDel request "status") repl with
        | false => simp [he]
        | true =>
          simp only [he, if_true]
          cases hst : Profiles.dictGet? repl "status" with
          | none => simp [statusOk, hst, he]
          | some sv =>
            simp only [hst]
            by_cases hsv : sv = JV.jstr "success"
            · rw [if_pos hsv]
              simp [statusOk, hst, hsv, he]
            · rw [if_neg hsv]
              by_cases hfl : sv = JV.jstr "failure" ∧
                  (Profiles.dictGet? repl "error").isSome
              · rw [if_pos hfl]
                simp [statusOk, hst, hsv, hfl, he]
              · rw [if_neg hfl]
                constructor
                · intro _
                  refine Or.inr (Or.inr ⟨repl, rfl, Or.inr ⟨he, ?_⟩⟩)
                  simp only [statusOk, hst, Option.some.injEq]
                  rw [decide_eq_false_iff_not]
                  tauto
                · intro _
                  rfl
  · intro repl hr hs he hok
    subst hr
    simp only [agent_rpc_call, hfds]
    rw [if_pos hlen]
    simp only [hs, if_true, he, if_true]
    simp only [statusOk] at hok
    cases hst : Profiles.dictGet? repl "status" with
    | none => rw [hst] at hok; simp at hok
    | some sv =>
      rw [hst] at hok
      simp at hok
      simp only [hst]
      by_cases hsv : sv = JV.jstr "success"
      · rw [if_pos hsv]
      · have hfl : sv = JV.jstr "failure" ∧ (Profiles.dictGet? repl "error").isSome := by
          tauto
        rw [if_neg hsv, if_pos hfl]
  · intro repl hr hs he hst
    subst hr
    simp only [agent_rpc_call, hfds]
    rw [if_pos hlen]
    simp only [hs, if_true, he, if_true, hst]

end AgentRPC

namespace AgentRPC

theorem agent_rpc_call_error_characterization_witness :
    ((Profiles.splitWS "3 4").mapM parsePyInt = some [3, 4]) ∧
    ([3, 4] : List Int).length = 2 ∧
    agent_rpc_call none .decodeError [] = Except.error CallError.genericBuildError ∧
    agent_rpc_call (some "3 4") .decodeError [] = Except.error CallError.genericBuildError := by
  have h := agent_rpc_call_error_characterization "3 4" [3, 4] .decodeError [] rfl rfl
  exact ⟨rfl, rfl, h.1, h.2.1.mpr (Or.inl rfl)⟩

end AgentRPC

namespace PkgUpdates

/-- An atom as far as `_process_update` observes one: its `cat/pkg` key,
optional version (`fullver`) and optional slot (`pkgcore.ebuild.atom` is
external to the sources under verification). -/
structure UAtom where
  key : String
  fullver : Option String
  slot : Option String
deriving DecidableEq, Repr

/-- A command of the produced per-key chains: `('move', src, trg)` or
`('slotmove', slotted_src_atom, new_slot)`. -/
inductive Cmd where
  | move (src trg : UAtom)
  | slotmove (src : UAtom) (newSlot : String)
deriving DecidableEq, Repr

/-- One line of an updates file after tokenizing and atom parsing: a
three-token `move` line, a four-token `slotmove` line, or anything else
(bad arity, unparsable atom, unknown command), which `_process_update`
logs and skips. -/
inductive Line where
  | move (src trg : UAtom)
  | slotmove (src : UAtom) (oldSlot newSlot : String)
  | skip
deriving DecidableEq, Repr

/-- An entry of one deque: a command tuple, or a nested deque referenced
by its index in the heap. -/
inductive Entry where
  | cmd (c : Cmd)
  | ref (i : Nat)
deriving DecidableEq, Repr

/-- The state `read_updates` threads through `_process_update`: the heap
of all allocated deques (index = allocation order; mutable `deque`
objects are shared by reference, embedded as indices), the `mods`
defaultdict mapping a key to its `[root, tail]` pair of deques, and the
`moved` dict. -/
structure St where
  heap : List (List Entry)
  mods : List (String × Nat × Nat)
  moved : List (String × String)
deriving DecidableEq, Repr

def initSt : St := ⟨[], [], []⟩

/-- `deque()` — allocate a fresh empty deque at the end of the heap. -/
def allocDeque (st : St) : St := { st with heap := st.heap ++ [[]] }

/-- `<deque>.extend(es)` / `.append(e)` on the deque at index `i`. -/
def pushAt (st : St) (i : Nat) (es : List Entry) : St :=
  { st with heap := st.heap.set i (st.heap.getD i [] ++ es) }

/-- `mods[trg][1] = d`: replace the tail of the (first) entry for `k`. -/
def setTail (mods : List (String × Nat × Nat)) (k : String) (d : Nat) :
    List (String × Nat × Nat) :=
  match mods with
  | [] => []
  | kv :: rest => if kv.1 = k then (kv.1, kv.2.1, d) :: rest else kv :: setTail rest k d

/-- `mods[k]` on the defaultdict (`pkg_updates.py` lines 30–40): an
absent key allocates one fresh deque `d` and maps `k` to `[d, d]`.
Returns the new state and the `(root, tail)` pair. -/
def getMods (st : St) (k : String) : St × Nat × Nat :=
  match Profiles.dictGet? st.mods k with
  | some rt => (st, rt)
  | none =>
    ({ st with heap := st.heap ++ [[]], mods := st.mods ++ [(k, st.heap.length, st.heap.length)] },
      st.heap.length, st.heap.length)

/-- The `move` branch of `_process_update` (lines 85–90), after the
guards have passed: allocate the checkpoint deque `d`, extend the
source's tail with the command and `d`, append `d` to the target's tail,
make `d` the target's new tail, and record the move. -/
def doMove (st : St) (src trg : UAtom) : St :=
  let d := st.heap.length
  let st1 := allocDeque st
  let r1 := getMods st1 src.key
  let st2 := pushAt r1.1 r1.2.2 [.cmd (.move src trg), .ref d]
  let r2 := getMods st2 trg.key
  let st3 := pushAt r2.1 r2.2.2 [.ref d]
  { st3 with mods := setTail st3.mods trg.key d,
             moved := st3.moved ++ [(src.key, trg.key)] }

/-- The `slotmove` branch (lines 113–116), after the guards. -/
def doSlotmove (st : St) (src : UAtom) (oldSlot newSlot : String) : St :=
  let r := getMods st src.key
  pushAt r.1 r.2.2 [.cmd (.slotmove { src with slot := some oldSlot } newSlot)]

/-- Embedding of one iteration of `_process_update` (lines 57–117):
version/slot validation, the redundancy check against `moved`, then the
state mutation; malformed lines are logged and skipped. -/
def processLine (st : St) : Line → St
  | .move src trg =>
    if src.fullver.isSome then st
    else if trg.fullver.isSome then st
    else if (Profiles.dictGet? st.moved src.key).isSome then st
    else doMove st src trg
  | .slotmove src oldSlot newSlot =>
    if (Profiles.dictGet? st.moved src.key).isSome then st
    else if src.slot.isSome then st
    else doSlotmove st src oldSlot newSlot
  | .skip => st

def processLines (lines : List Line) (st : St) : St :=
  lines.foldl processLine st

/-- `iflatten_instance(v[0], tuple)`: flatten the deque tree rooted at
deque `i`, leaving command tuples atomic.  The recursion is bounded by a
fuel; `read_updates` runs it with fuel `heap.length`, which suffices
because the reference structure is acyclic with rank below the heap
size (established below). -/
def flattenF (heap : List (List Entry)) : Nat → Nat → List Cmd
  | 0, _ => []
  | fuel + 1, i =>
    (heap.getD i []).flatMap fun e =>
      match e with
      | .cmd c => [c]
      | .ref j => flattenF heap fuel j

/-- The flattening and empty-filtering tail of `read_updates` (lines
49–54) applied to a processed state. -/
def readUpdatesLines (lines : List Line) : List (String × List Cmd) :=
  let st := processLines lines initSt
  (st.mods.map (fun kv => (kv.1, flattenF st.heap st.heap.length kv.2.1))).filter
    (fun kv => !kv.2.isEmpty)

/-- The line sequence `read_updates` processes for a directory listing
(file name → parsed lines): the scanned files in sorted order,
concatenated. -/
def linesOf (listing : List (String × List Line)) : List Line :=
  (scanDirectory (listing.map Prod.fst)).flatMap
    (fun fp => (Profiles.dictGet? listing fp).getD [])

/-- Embedding of `read_updates` (lines 29–54) over a directory listing. -/
def read_updates (listing : List (String × List Line)) : List (String × List Cmd) :=
  readUpdatesLines (linesOf listing)

/-- The number of move commands whose source has the given key. -/
def countSrcMoves (k : String) (cmds : List Cmd) : Nat :=
  cmds.countP (fun c => match c with | .move s _ => s.key = k | _ => false)

end PkgUpdates

namespace Profiles

theorem dictGet?_mem {α : Type} (l : List (String × α)) (k : String) (v : α)
    (h : dictGet? l k = some v) : (k, v) ∈ l := by
  induction l with
  | nil => cases h
  | cons kv rest ih =>
    unfold dictGet? at h
    by_cases hk : kv.1 = k
    · rw [if_pos hk] at h
      injection h with h2
      subst h2
      subst hk
      simp
    · rw [if_neg hk] at h
      exact List.mem_cons_of_mem _ (ih h)

end Profiles

namespace PkgUpdates

/-- C9: every value of the mapping `read_updates` returns is a non-empty
command list — keys whose spliced chain flattens to nothing are removed
by the final filter (`pkg_updates.py` lines 50–52). -/
theorem read_updates_values_nonempty (listing : List (String × List Line))
    (k : String) (v : List Cmd)
    (h : Profiles.dictGet? (read_updates listing) k = some v) : v ≠ [] := by
  have hm := Profiles.dictGet?_mem _ _ _ h
  unfold read_updates readUpdatesLines at hm
  rw [List.mem_filter] at hm
  have h2 := hm.2
  simp only [Bool.not_eq_true'] at h2
  intro hv
  subst hv
  simp at h2

theorem read_updates_values_nonempty_witness :
    Profiles.dictGet? (read_updates [("1Q-2020",
      [Line.move ⟨"c/a", none, none⟩ ⟨"c/b", none, none⟩])]) "c/a" =
      some [Cmd.move ⟨"c/a", none, none⟩ ⟨"c/b", none, none⟩] ∧
    ([Cmd.move ⟨"c/a", none, none⟩ ⟨"c/b", none, none⟩] : List Cmd) ≠ [] :=
  ⟨rfl, read_updates_values_nonempty
    [("1Q-2020", [Line.move ⟨"c/a", none, none⟩ ⟨"c/b", none, none⟩])] "c/a"
    [Cmd.move ⟨"c/a", none, none⟩ ⟨"c/b", none, none⟩] rfl⟩

end PkgUpdates

namespace PkgUpdates

/-- Deque `u` is reachable from deque `i` through `ref` entries. -/
inductive Reach (heap : List (List Entry)) : Nat → Nat → Prop where
  | refl (i : Nat) : Reach heap i i
  | step {i j u : Nat} : Entry.ref j ∈ heap.getD i [] → Reach heap j u → Reach heap i u

/-- A ranking certifying the reference structure acyclic: every `ref`
edge strictly decreases the rank. -/
def RankOK (heap : List (List Entry)) (rank : Nat → Nat) : Prop :=
  ∀ i j, Entry.ref j ∈ heap.getD i [] → rank j < rank i

/-- The command appears (as a direct entry) in some deque of the heap. -/
def CmdInHeap (heap : List (List Entry)) (c : Cmd) : Prop :=
  ∃ u, Entry.cmd c ∈ heap.getD u []

theorem getD_append_empty (heap : List (List Entry)) (i : Nat) :
    (heap ++ ([[]] : List (List Entry))).getD i [] = heap.getD i [] := by
  induction heap generalizing i with
  | nil => cases i with | zero => rfl | succ n => cases n <;> rfl
  | cons hd tl ih =>
    cases i with
    | zero => rfl
    | succ n => exact ih n

theorem getD_set (heap : List (List Entry)) (t : Nat) (es : List Entry) (i : Nat) :
    (heap.set t (heap.getD t [] ++ es)).getD i [] =
      if i = t ∧ t < heap.length then heap.getD t [] ++ es else heap.getD i [] := by
  induction heap generalizing i t with
  | nil => simp [List.set]
  | cons hd tl ih =>
    cases t with
    | zero =>
      cases i with
      | zero => simp [List.set, List.getD]
      | succ n => simp [List.set, List.getD]
    | succ m =>
      cases i with
      | zero => simp [List.set, List.getD]
      | succ n =>
        show (tl.set m (tl.getD m [] ++ es)).getD n [] = _
        rw [ih m n]
        by_cases h1 : n = m ∧ m < tl.length
        · rw [if_pos h1, if_pos ⟨by omega, by simpa using h1.2⟩]
          rfl
        · rw [if_neg h1, if_neg (by simpa using h1)]
          rfl

theorem flatMap_congr {α β : Type} {l : List α} {f g : α → List β}
    (h : ∀ e ∈ l, f e = g e) : l.flatMap f = l.flatMap g := by
  induction l with
  | nil => rfl
  | cons a l ih =>
    rw [List.flatMap_cons, List.flatMap_cons, h a (List.mem_cons_self a l),
      ih (fun e he => h e (List.mem_cons_of_mem a he))]

theorem flattenF_congr (h1 h2 : List (List Entry))
    (hq : ∀ i, h1.getD i [] = h2.getD i []) :
    ∀ f i, flattenF h1 f i = flattenF h2 f i := by
  intro f
  induction f with
  | zero => intro i; rfl
  | succ f ih =>
    intro i
    show (h1.getD i []).flatMap _ = (h2.getD i []).flatMap _
    rw [hq i]
    apply flatMap_congr
    intro e _
    match e with
    | .cmd c => rfl
    | .ref j => exact ih j

theorem reach_congr (h1 h2 : List (List Entry))
    (hq : ∀ i, h1.getD i [] = h2.getD i []) {i u : Nat}
    (h : Reach h1 i u) : Reach h2 i u := by
  induction h with
  | refl i => exact .refl i
  | step he _ ih => exact .step (by rw [← hq]; exact he) ih

theorem reach_mono (h1 h2 : List (List Entry))
    (hpre : ∀ i, ∃ ext, h2.getD i [] = h1.getD i [] ++ ext) {i u : Nat}
    (h : Reach h1 i u) : Reach h2 i u := by
  induction h with
  | refl i => exact .refl i
  | step he _ ih =>
    obtain ⟨ext, hext⟩ := hpre _
    exact .step (by rw [hext]; exact List.mem_append_left _ he) ih

theorem reach_trans (heap : List (List Entry)) {i j u : Nat}
    (h1 : Reach heap i j) (h2 : Reach heap j u) : Reach heap i u := by
  induction h1 with
  | refl i => exact h2
  | step he _ ih => exact .step he (ih h2)

theorem flattenF_fuel_congr (heap : List (List Entry)) (rank : Nat → Nat)
    (hr : RankOK heap rank) :
    ∀ n i f g, rank i < n → rank i < f → rank i < g →
      flattenF heap f i = flattenF heap g i := by
  intro n
  induction n with
  | zero => intro i f g hn; exact absurd hn (Nat.not_lt_zero _)
  | succ n ih =>
    intro i f g hn hf hg
    cases f with
    | zero => exact absurd hf (Nat.not_lt_zero _)
    | succ f' =>
      cases g with
      | zero => exact absurd hg (Nat.not_lt_zero _)
      | succ g' =>
        show (heap.getD i []).flatMap _ = (heap.getD i []).flatMap _
        apply flatMap_congr
        intro e _
        match e with
        | .cmd c => rfl
        | .ref j =>
          have hj : rank j < rank i := hr i j (by assumption)
          exact ih j f' g' (by omega) (by omega) (by omega)

theorem mem_flattenF_of_reach (heap : List (List Entry)) (rank : Nat → Nat)
    (hr : RankOK heap rank) {i u : Nat} {c : Cmd}
    (hre : Reach heap i u) (hc : Entry.cmd c ∈ heap.getD u []) :
    ∀ f, rank i < f → c ∈ flattenF heap f i := by
  induction hre with
  | refl i =>
    intro f hf
    cases f with
    | zero => exact absurd hf (Nat.not_lt_zero _)
    | succ f' =>
      show c ∈ (heap.getD i []).flatMap _
      rw [List.mem_flatMap]
      exact ⟨.cmd c, hc, List.mem_singleton.mpr rfl⟩
  | step he hrej ih =>
    intro f hf
    cases f with
    | zero => exact absurd hf (Nat.not_lt_zero _)
    | succ f' =>
      show c ∈ (heap.getD _ []).flatMap _
      rw [List.mem_flatMap]
      refine ⟨.ref _, he, ?_⟩
      have := hr _ _ he
      exact ih hc f' (by omega)

theorem flattenF_infix_of_reach (heap : List (List Entry)) (rank : Nat → Nat)
    (hr : RankOK heap rank) {i u : Nat}
    (hre : Reach heap i u) :
    ∀ f, rank i < f →
      ∃ X Y, flattenF heap f i = X ++ flattenF heap (rank u + 1) u ++ Y := by
  induction hre with
  | refl i =>
    intro f hf
    refine ⟨[], [], ?_⟩
    rw [flattenF_fuel_congr heap rank hr (rank i + 1) i f (rank i + 1)
      (by omega) hf (by omega)]
    simp
  | step he hrej ih =>
    intro f hf
    cases f with
    | zero => exact absurd hf (Nat.not_lt_zero _)
    | succ f' =>
      have hji := hr _ _ he
      obtain ⟨P, Q, hPQ⟩ := List.append_of_mem he
      obtain ⟨X, Y, hXY⟩ := ih f' (by omega)
      refine ⟨P.flatMap (fun e => match e with
          | .cmd c => [c]
          | .ref j => flattenF heap f' j) ++ X,
        Y ++ Q.flatMap (fun e => match e with
          | .cmd c => [c]
          | .ref j => flattenF heap f' j), ?_⟩
      show (heap.getD _ []).flatMap _ = _
      rw [hPQ, List.flatMap_append, List.flatMap_cons]
      show _ ++ (flattenF heap f' _ ++ _) = _
      rw [hXY]
      simp [List.append_assoc]

theorem flattenF_mem_heap (heap : List (List Entry)) :
    ∀ f i c, c ∈ flattenF heap f i → CmdInHeap heap c := by
  intro f
  induction f with
  | zero => intro i c h; cases h
  | succ f ih =>
    intro i c h
    obtain ⟨e, he, hce⟩ := List.mem_flatMap.mp h
    match e with
    | .cmd c' =>
      have : c = c' := List.mem_singleton.mp hce
      exact ⟨i, this ▸ he⟩
    | .ref j => exact ih j c hce

end PkgUpdates

namespace PkgUpdates

theorem getD_oob (heap : List (List Entry)) (i : Nat) (h : heap.length ≤ i) :
    heap.getD i [] = [] := by
  induction heap generalizing i with
  | nil => cases i <;> rfl
  | cons hd tl ih =>
    cases i with
    | zero => simp at h
    | succ n => exact ih n (by simpa using h)

theorem lt_length_of_getD_ne (heap : List (List Entry)) (i : Nat)
    (h : heap.getD i [] ≠ []) : i < heap.length := by
  by_contra hc
  exact h (getD_oob heap i (by omega))

theorem dictGet?_append_of_some {α : Type} {l : List (String × α)} {k : String}
    {v : α} (l2 : List (String × α)) (h : Profiles.dictGet? l k = some v) :
    Profiles.dictGet? (l ++ l2) k = some v := by
  induction l with
  | nil => cases h
  | cons kv rest ih =>
    unfold Profiles.dictGet? at h
    show Profiles.dictGet? (kv :: (rest ++ l2)) k = some v
    unfold Profiles.dictGet?
    by_cases hk : kv.1 = k
    · rw [if_pos hk] at h
      rw [if_pos hk]
      exact h
    · rw [if_neg hk] at h
      rw [if_neg hk]
      exact ih h

theorem dictGet?_append_of_none {α : Type} {l : List (String × α)} {k : String}
    (l2 : List (String × α)) (h : Profiles.dictGet? l k = none) :
    Profiles.dictGet? (l ++ l2) k = Profiles.dictGet? l2 k := by
  induction l with
  | nil => rfl
  | cons kv rest ih =>
    unfold Profiles.dictGet? at h
    have hstep : Profiles.dictGet? ((kv :: rest) ++ l2) k =
        if kv.1 = k then some kv.2 else Profiles.dictGet? (rest ++ l2) k := rfl
    rw [hstep]
    by_cases hk : kv.1 = k
    · rw [if_pos hk] at h
      cases h
    · rw [if_neg hk] at h
      rw [if_neg hk]
      exact ih h

theorem setTail_lookup_self (mods : List (String × Nat × Nat)) (k : String)
    (d r t : Nat) (h : Profiles.dictGet? mods k = some (r, t)) :
    Profiles.dictGet? (setTail mods k d) k = some (r, d) := by
  induction mods with
  | nil => cases h
  | cons kv rest ih =>
    unfold Profiles.dictGet? at h
    unfold setTail
    by_cases hk : kv.1 = k
    · rw [if_pos hk] at h
      rw [if_pos hk]
      unfold Profiles.dictGet?
      rw [if_pos hk]
      injection h with h2
      rw [h2]
    · rw [if_neg hk] at h
      rw [if_neg hk]
      show Profiles.dictGet? (kv :: setTail rest k d) k = _
      unfold Profiles.dictGet?
      rw [if_neg hk]
      exact ih h

theorem setTail_lookup_ne (mods : List (String × Nat × Nat)) (k : String)
    (d : Nat) (k' : String) (h : k' ≠ k) :
    Profiles.dictGet? (setTail mods k d) k' = Profiles.dictGet? mods k' := by
  induction mods with
  | nil => rfl
  | cons kv rest ih =>
    unfold setTail
    by_cases hk : kv.1 = k
    · rw [if_pos hk]
      unfold Profiles.dictGet?
      rw [if_neg (by rw [hk]; exact fun hc => h hc.symm),
        if_neg (by rw [hk]; exact fun hc => h hc.symm)]
    · rw [if_neg hk]
      show Profiles.dictGet? (kv :: setTail rest k d) k' = _
      unfold Profiles.dictGet?
      by_cases hk' : kv.1 = k'
      · rw [if_pos hk', if_pos hk']
      · rw [if_neg hk', if_neg hk']
        exact ih

/-- Roots and tails recorded in `mods` are valid deques with the tail
reachable from the root. -/
def ModsOK (heap : List (List Entry)) (mods : List (String × Nat × Nat)) : Prop :=
  ∀ k r t, Profiles.dictGet? mods k = some (r, t) →
    r < heap.length ∧ t < heap.length ∧ Reach heap r t

/-- What one processing step preserves, for any observer: deque contents
only grow at the end, keys keep their root and their tail stays
reachable from wherever the tail was, and `moved` entries persist. -/
structure StExtends (st st' : St) : Prop where
  heapPrefix : ∀ i, ∃ ext, st'.heap.getD i [] = st.heap.getD i [] ++ ext
  lenLE : st.heap.length ≤ st'.heap.length
  modsRoot : ∀ k r t, Profiles.dictGet? st.mods k = some (r, t) →
    ∃ t', Profiles.dictGet? st'.mods k = some (r, t') ∧ Reach st'.heap t t'
  movedMono : ∀ k v, Profiles.dictGet? st.moved k = some v →
    Profiles.dictGet? st'.moved k = some v

theorem stExtends_refl (st : St) : StExtends st st :=
  ⟨fun i => ⟨[], by simp⟩, le_refl _, fun k r t h => ⟨t, h, .refl t⟩, fun _ _ h => h⟩

theorem stExtends_trans {s1 s2 s3 : St} (h12 : StExtends s1 s2)
    (h23 : StExtends s2 s3) : StExtends s1 s3 := by
  refine ⟨?_, le_trans h12.lenLE h23.lenLE, ?_, ?_⟩
  · intro i
    obtain ⟨e1, he1⟩ := h12.heapPrefix i
    obtain ⟨e2, he2⟩ := h23.heapPrefix i
    exact ⟨e1 ++ e2, by rw [he2, he1, List.append_assoc]⟩
  · intro k r t h
    obtain ⟨t', ht', hre⟩ := h12.modsRoot k r t h
    obtain ⟨t'', ht'', hre'⟩ := h23.modsRoot k r t' ht'
    exact ⟨t'', ht'', reach_trans _ (reach_mono _ _ h23.heapPrefix hre) hre'⟩
  · exact fun k v h => h23.movedMono k v (h12.movedMono k v h)

/-- The invariant every state reachable from `initSt` satisfies: the
reference structure is acyclic with ranks below the heap size,
references are valid, `mods` entries are well formed, and every `move`
command in the heap is covered by `moved` and is the unique move from
its source key. -/
structure Inv (st : St) : Prop where
  acyc : ∃ rank : Nat → Nat, RankOK st.heap rank ∧
    ∀ i, i < st.heap.length → rank i < st.heap.length
  valid : ∀ i j, Entry.ref j ∈ st.heap.getD i [] → j < st.heap.length
  modsValid : ModsOK st.heap st.mods
  movedCovers : ∀ x y, CmdInHeap st.heap (.move x y) →
    (Profiles.dictGet? st.moved x.key).isSome
  movedUnique : ∀ x y x' y', CmdInHeap st.heap (.move x y) →
    CmdInHeap st.heap (.move x' y') → x.key = x'.key → x = x' ∧ y = y'

theorem inv_init : Inv initSt := by
  refine ⟨⟨fun _ => 0, ?_, ?_⟩, ?_, ?_, ?_, ?_⟩
  · intro i j h
    cases i <;> cases h
  · intro i h
    simp [initSt] at h
  · intro i j h
    cases i <;> cases h
  · intro k r t h
    cases h
  · rintro x y ⟨u, hu⟩
    cases u <;> cases hu
  · rintro x y x' y' ⟨u, hu⟩
    cases u <;> cases hu

end PkgUpdates

namespace PkgUpdates

theorem allocDeque_getD (st : St) (i : Nat) :
    (allocDeque st).heap.getD i [] = st.heap.getD i [] :=
  getD_append_empty st.heap i

theorem allocDeque_len (st : St) :
    (allocDeque st).heap.length = st.heap.length + 1 := by
  simp [allocDeque]

theorem pushAt_getD_self (st : St) (t : Nat) (es : List Entry)
    (ht : t < st.heap.length) :
    (pushAt st t es).heap.getD t [] = st.heap.getD t [] ++ es := by
  show (st.heap.set t _).getD t [] = _
  rw [getD_set, if_pos ⟨rfl, ht⟩]

theorem pushAt_getD_ne (st : St) (t : Nat) (es : List Entry) (i : Nat)
    (hi : i ≠ t) : (pushAt st t es).heap.getD i [] = st.heap.getD i [] := by
  show (st.heap.set t _).getD i [] = _
  rw [getD_set, if_neg (by tauto)]

theorem pushAt_len (st : St) (t : Nat) (es : List Entry) :
    (pushAt st t es).heap.length = st.heap.length := by
  simp [pushAt]

theorem modsOK_transport (h1 h2 : List (List Entry))
    (mods : List (String × Nat × Nat))
    (hq : ∀ i, h2.getD i [] = h1.getD i [])
    (hlen : h1.length ≤ h2.length) (hm : ModsOK h1 mods) : ModsOK h2 mods := by
  intro k r t h
  obtain ⟨hr, ht, hre⟩ := hm k r t h
  exact ⟨by omega, by omega, reach_congr h1 h2 (fun i => (hq i).symm) hre⟩

theorem modsOK_push (st : St) (t : Nat) (es : List Entry) (ht : t < st.heap.length)
    (hm : ModsOK st.heap st.mods) : ModsOK (pushAt st t es).heap (pushAt st t es).mods := by
  intro k r tt h
  obtain ⟨hr, htt, hre⟩ := hm k r tt h
  rw [pushAt_len]
  refine ⟨hr, htt, ?_⟩
  refine reach_mono st.heap _ ?_ hre
  intro i
  by_cases hi : i = t
  · subst hi
    exact ⟨es, pushAt_getD_self st i es ht⟩
  · exact ⟨[], by rw [pushAt_getD_ne st t es i hi, List.append_nil]⟩

/-- The state produced by a defaultdict miss in `getMods`. -/
def freshMods (st : St) (k : String) : St :=
  { st with heap := st.heap ++ [[]], mods := st.mods ++ [(k, st.heap.length, st.heap.length)] }

theorem getMods_eq_of_some (st : St) (k : String) (rt : Nat × Nat)
    (h : Profiles.dictGet? st.mods k = some rt) : getMods st k = (st, rt) := by
  unfold getMods
  rw [h]

theorem getMods_eq_of_none (st : St) (k : String)
    (h : Profiles.dictGet? st.mods k = none) :
    getMods st k = (freshMods st k, st.heap.length, st.heap.length) := by
  unfold getMods freshMods
  rw [h]

theorem freshMods_lookup_self (st : St) (k : String)
    (h : Profiles.dictGet? st.mods k = none) :
    Profiles.dictGet? (freshMods st k).mods k = some (st.heap.length, st.heap.length) := by
  show Profiles.dictGet? (st.mods ++ [(k, st.heap.length, st.heap.length)]) k = _
  rw [dictGet?_append_of_none _ h]
  show (if k = k then some (st.heap.length, st.heap.length) else none) = _
  rw [if_pos rfl]

theorem freshMods_lookup_conv (st : St) (k : String) (k' : String) (rt : Nat × Nat)
    (h : Profiles.dictGet? (freshMods st k).mods k' = some rt) :
    Profiles.dictGet? st.mods k' = some rt ∨
      (k' = k ∧ rt = (st.heap.length, st.heap.length)) := by
  cases hlk' : Profiles.dictGet? st.mods k' with
  | some v =>
    rw [show Profiles.dictGet? (freshMods st k).mods k' = some v from
      dictGet?_append_of_some _ hlk'] at h
    exact Or.inl h
  | none =>
    rw [show Profiles.dictGet? (freshMods st k).mods k' =
        Profiles.dictGet? [(k, st.heap.length, st.heap.length)] k' from
      dictGet?_append_of_none _ hlk'] at h
    have h' : (if k = k' then some (st.heap.length, st.heap.length) else none)
        = some rt := h
    by_cases hkk : k = k'
    · rw [if_pos hkk] at h'
      injection h' with h2
      exact Or.inr ⟨hkk.symm, h2.symm⟩
    · rw [if_neg hkk] at h'
      cases h'

theorem getMods_spec (st : St) (k : String) :
    (∀ i, (getMods st k).1.heap.getD i [] = st.heap.getD i []) ∧
    st.heap.length ≤ (getMods st k).1.heap.length ∧
    (getMods st k).1.moved = st.moved ∧
    Profiles.dictGet? (getMods st k).1.mods k =
      some ((getMods st k).2.1, (getMods st k).2.2) ∧
    (∀ k' rt, Profiles.dictGet? st.mods k' = some rt →
      Profiles.dictGet? (getMods st k).1.mods k' = some rt) ∧
    (∀ k' rt, Profiles.dictGet? (getMods st k).1.mods k' = some rt →
      Profiles.dictGet? st.mods k' = some rt ∨
        (k' = k ∧ rt = (st.heap.length, st.heap.length))) ∧
    (Profiles.dictGet? st.mods k = some ((getMods st k).2.1, (getMods st k).2.2) ∨
      ((getMods st k).2.1 = st.heap.length ∧ (getMods st k).2.2 = st.heap.length ∧
        (getMods st k).1.heap.length = st.heap.length + 1)) := by
  cases hlk : Profiles.dictGet? st.mods k with
  | some rt =>
    rw [getMods_eq_of_some st k rt hlk]
    refine ⟨fun i => rfl, le_refl _, rfl, hlk, fun k' rt' h => h,
      fun k' rt' h => Or.inl h, Or.inl rfl⟩
  | none =>
    rw [getMods_eq_of_none st k hlk]
    refine ⟨fun i => getD_append_empty st.heap i, by simp [freshMods], rfl,
      freshMods_lookup_self st k hlk, ?_, ?_, Or.inr ⟨rfl, rfl, by simp [freshMods]⟩⟩
    · intro k' rt' h
      exact dictGet?_append_of_some _ h
    · intro k' rt' h
      exact freshMods_lookup_conv st k k' rt' h

theorem getMods_modsOK (st : St) (k : String) (hm : ModsOK st.heap st.mods) :
    ModsOK (getMods st k).1.heap (getMods st k).1.mods := by
  cases hlk : Profiles.dictGet? st.mods k with
  | some rt =>
    rw [getMods_eq_of_some st k rt hlk]
    exact hm
  | none =>
    rw [getMods_eq_of_none st k hlk]
    intro k' r t h
    have hlen : (freshMods st k).heap.length = st.heap.length + 1 := by
      simp [freshMods]
    rcases freshMods_lookup_conv st k k' (r, t) h with hold | ⟨_, hrt⟩
    · obtain ⟨hr, ht, hre⟩ := hm k' r t hold
      refine ⟨?_, ?_, ?_⟩
      · show r < (freshMods st k).heap.length
        omega
      · show t < (freshMods st k).heap.length
        omega
      · exact reach_congr st.heap _ (fun i => (getD_append_empty st.heap i).symm) hre
    · injection hrt with h1 h2
      subst h1
      subst h2
      refine ⟨?_, ?_, .refl _⟩
      · show st.heap.length < (freshMods st k).heap.length
        omega
      · show st.heap.length < (freshMods st k).heap.length
        omega

end PkgUpdates

namespace PkgUpdates

theorem doMove_spec (st : St) (src trg : UAtom) (hInv : Inv st)
    (hmoved : Profiles.dictGet? st.moved src.key = none) :
    Inv (doMove st src trg) ∧
    StExtends st (doMove st src trg) ∧
    Profiles.dictGet? (doMove st src trg).moved src.key = some trg.key ∧
    (∀ k v, Profiles.dictGet? (doMove st src trg).moved k = some v →
      Profiles.dictGet? st.moved k = some v ∨ (k = src.key ∧ v = trg.key)) ∧
    (∃ u₀ pre post, (doMove st src trg).heap.getD u₀ [] =
        pre ++ [Entry.cmd (Cmd.move src trg), Entry.ref st.heap.length] ++ post ∧
      ∃ ra ta, Profiles.dictGet? (doMove st src trg).mods src.key = some (ra, ta) ∧
        Reach (doMove st src trg).heap ra u₀) ∧
    (∃ rb, Profiles.dictGet? (doMove st src trg).mods trg.key =
      some (rb, st.heap.length)) ∧
    (∀ c, CmdInHeap (doMove st src trg).heap c →
      CmdInHeap st.heap c ∨ c = Cmd.move src trg) ∧
    (∀ r t, Profiles.dictGet? st.mods src.key = some (r, t) →
      Entry.cmd (Cmd.move src trg) ∈ (doMove st src trg).heap.getD t []) := by
  obtain ⟨rank, hrk, hrb⟩ := hInv.acyc
  set d := st.heap.length with hd
  set st1 := allocDeque st with hst1
  set G1 := getMods st1 src.key with hG1
  set st2 := pushAt G1.1 G1.2.2 [Entry.cmd (Cmd.move src trg), Entry.ref d] with hst2
  set G2 := getMods st2 trg.key with hG2
  set st3 := pushAt G2.1 G2.2.2 [Entry.ref d] with hst3
  set stf : St := { st3 with mods := setTail st3.mods trg.key d, moved := st3.moved ++ [(src.key, trg.key)] } with hstf
  have hres : doMove st src trg = stf := rfl
  rw [hres]
  -- stage facts
  have hq1 : ∀ i, st1.heap.getD i [] = st.heap.getD i [] := fun i => allocDeque_getD st i
  have hlen1 : st1.heap.length = d + 1 := allocDeque_len st
  have hmods1 : st1.mods = st.mods := rfl
  have hmoved1 : st1.moved = st.moved := rfl
  have hmOK1 : ModsOK st1.heap st1.mods := by
    rw [hmods1]
    exact modsOK_transport st.heap st1.heap st.mods hq1 (by omega) hInv.modsValid
  obtain ⟨hq2, hlen2, hmoved2, hself2, hkeep2, hconv2, hdisj2⟩ := getMods_spec st1 src.key
  rw [← hG1] at hq2 hlen2 hmoved2 hself2 hkeep2 hconv2 hdisj2
  have hmOK2 : ModsOK G1.1.heap G1.1.mods := by
    rw [hG1]
    exact getMods_modsOK st1 src.key hmOK1
  have hstail_lt : G1.2.2 < G1.1.heap.length := (hmOK2 src.key G1.2.1 G1.2.2 hself2).2.1
  have hstail_ne_d : G1.2.2 ≠ d := by
    rcases hdisj2 with hold | ⟨h1, h2, h3⟩
    · have hb := (hInv.modsValid src.key G1.2.1 G1.2.2 hold).2.1
      omega
    · rw [h2, hlen1]
      omega
  have hq3self : st2.heap.getD G1.2.2 [] =
      G1.1.heap.getD G1.2.2 [] ++ [Entry.cmd (Cmd.move src trg), Entry.ref d] := by
    rw [hst2]
    exact pushAt_getD_self G1.1 G1.2.2 _ hstail_lt
  have hq3ne : ∀ i, i ≠ G1.2.2 → st2.heap.getD i [] = G1.1.heap.getD i [] := by
    intro i hi
    rw [hst2]
    exact pushAt_getD_ne G1.1 G1.2.2 _ i hi
  have hlen3 : st2.heap.length = G1.1.heap.length := by
    rw [hst2]
    exact pushAt_len G1.1 G1.2.2 _
  have hmods3 : st2.mods = G1.1.mods := rfl
  have hmoved3 : st2.moved = st.moved := by
    rw [show st2.moved = G1.1.moved from rfl, hmoved2, hmoved1]
  have hmOK3 : ModsOK st2.heap st2.mods := by
    rw [hst2]
    exact modsOK_push G1.1 G1.2.2 _ hstail_lt hmOK2
  obtain ⟨hq4, hlen4, hmoved4, hself4, hkeep4, hconv4, hdisj4⟩ := getMods_spec st2 trg.key
  rw [← hG2] at hq4 hlen4 hmoved4 hself4 hkeep4 hconv4 hdisj4
  have hmOK4 : ModsOK G2.1.heap G2.1.mods := by
    rw [hG2]
    exact getMods_modsOK st2 trg.key hmOK3
  have httail_lt : G2.2.2 < G2.1.heap.length := (hmOK4 trg.key G2.2.1 G2.2.2 hself4).2.1
  have httail_ne_d : G2.2.2 ≠ d := by
    rcases hdisj4 with hold | ⟨h1, h2, h3⟩
    · rw [hmods3] at hold
      rcases hconv2 trg.key (G2.2.1, G2.2.2) hold with hold2 | ⟨_, hrt⟩
      · have hb := (hInv.modsValid trg.key G2.2.1 G2.2.2
          hold2).2.1
        omega
      · have hr3 : G2.2.2 = st1.heap.length := congrArg Prod.snd hrt
        rw [hr3, hlen1]
        omega
    · rw [h2, hlen3]
      omega
  have hq5self : st3.heap.getD G2.2.2 [] =
      G2.1.heap.getD G2.2.2 [] ++ [Entry.ref d] := by
    rw [hst3]
    exact pushAt_getD_self G2.1 G2.2.2 _ httail_lt
  have hq5ne : ∀ i, i ≠ G2.2.2 → st3.heap.getD i [] = G2.1.heap.getD i [] := by
    intro i hi
    rw [hst3]
    exact pushAt_getD_ne G2.1 G2.2.2 _ i hi
  have hlen5 : st3.heap.length = G2.1.heap.length := by
    rw [hst3]
    exact pushAt_len G2.1 G2.2.2 _
  have hmods5 : st3.mods = G2.1.mods := rfl
  have hmoved5 : st3.moved = st.moved := by
    rw [show st3.moved = G2.1.moved from rfl, hmoved4, hmoved3]
  have hmOK5 : ModsOK st3.heap st3.mods := by
    rw [hst3]
    exact modsOK_push G2.1 G2.2.2 _ httail_lt hmOK4
  have hlenf : d + 1 ≤ st3.heap.length := by omega
  -- combined content characterization
  have hstep3 : ∀ i, st3.heap.getD i [] =
      st2.heap.getD i [] ++ (if i = G2.2.2 then [Entry.ref d] else []) := by
    intro i
    by_cases h : i = G2.2.2
    · rw [h, if_pos rfl, ← hq4 G2.2.2]
      exact hq5self
    · rw [if_neg h, List.append_nil, ← hq4 i]
      exact hq5ne i h
  have hstep2 : ∀ i, st2.heap.getD i [] = st.heap.getD i [] ++
      (if i = G1.2.2 then [Entry.cmd (Cmd.move src trg), Entry.ref d] else []) := by
    intro i
    by_cases h : i = G1.2.2
    · rw [h, if_pos rfl, ← hq1 G1.2.2, ← hq2 G1.2.2]
      exact hq3self
    · rw [if_neg h, List.append_nil, ← hq1 i, ← hq2 i]
      exact hq3ne i h
  have hgetDf : ∀ i, st3.heap.getD i [] = st.heap.getD i [] ++
      ((if i = G1.2.2 then [Entry.cmd (Cmd.move src trg), Entry.ref d] else []) ++
       (if i = G2.2.2 then [Entry.ref d] else [])) := by
    intro i
    rw [hstep3 i, hstep2 i, List.append_assoc]
  have hmemf : ∀ i e, e ∈ st3.heap.getD i [] → e ∈ st.heap.getD i [] ∨
      ((i = G1.2.2 ∨ i = G2.2.2) ∧
        (e = Entry.cmd (Cmd.move src trg) ∨ e = Entry.ref d)) := by
    intro i e he
    rw [hgetDf i] at he
    rcases List.mem_append.mp he with h | h
    · exact Or.inl h
    · rcases List.mem_append.mp h with h | h
      · by_cases hi : i = G1.2.2
        · rw [if_pos hi] at h
          rcases List.mem_cons.mp h with h | h
          · exact Or.inr ⟨Or.inl hi, Or.inl h⟩
          · rcases List.mem_cons.mp h with h | h
            · exact Or.inr ⟨Or.inl hi, Or.inr h⟩
            · cases h
        · rw [if_neg hi] at h
          cases h
      · by_cases hi : i = G2.2.2
        · rw [if_pos hi] at h
          rcases List.mem_cons.mp h with h | h
          · exact Or.inr ⟨Or.inr hi, Or.inr h⟩
          · cases h
        · rw [if_neg hi] at h
          cases h
  have hpre0 : ∀ i, ∃ ext, st3.heap.getD i [] = st.heap.getD i [] ++ ext :=
    fun i => ⟨_, hgetDf i⟩
  have hpreG1 : ∀ i, ∃ ext, st3.heap.getD i [] = G1.1.heap.getD i [] ++ ext := by
    intro i
    refine ⟨(if i = G1.2.2 then [Entry.cmd (Cmd.move src trg), Entry.ref d] else []) ++
      (if i = G2.2.2 then [Entry.ref d] else []), ?_⟩
    rw [hgetDf i, hq2 i, hq1 i]
  have hpreG2 : ∀ i, ∃ ext, st3.heap.getD i [] = G2.1.heap.getD i [] ++ ext := by
    intro i
    refine ⟨(if i = G2.2.2 then [Entry.ref d] else []), ?_⟩
    rw [hstep3 i, hq4 i]
  -- final-state projections
  have hfheap : stf.heap = st3.heap := rfl
  have hfmods : stf.mods = setTail st3.mods trg.key d := rfl
  have hfmoved : stf.moved = st3.moved ++ [(src.key, trg.key)] := rfl
  -- lookups in the final mods
  have hlook3trg : Profiles.dictGet? st3.mods trg.key = some (G2.2.1, G2.2.2) := by
    rw [hmods5]
    exact hself4
  have hlookftrg : Profiles.dictGet? stf.mods trg.key = some (G2.2.1, d) := by
    rw [hfmods]
    exact setTail_lookup_self st3.mods trg.key d G2.2.1 G2.2.2 hlook3trg
  have hedge_ttail : Entry.ref d ∈ st3.heap.getD G2.2.2 [] := by
    rw [hq5self]
    exact List.mem_append_right _ (by simp)
  have hreach_ttail_d : Reach st3.heap G2.2.2 d := .step hedge_ttail (.refl d)
  -- moved lookups
  have hmovedf_self : Profiles.dictGet? stf.moved src.key = some trg.key := by
    rw [hfmoved, hmoved5]
    rw [dictGet?_append_of_none _ hmoved]
    show (if src.key = src.key then some trg.key else none) = _
    rw [if_pos rfl]
  have hmovedf_conv : ∀ k v, Profiles.dictGet? stf.moved k = some v →
      Profiles.dictGet? st.moved k = some v ∨ (k = src.key ∧ v = trg.key) := by
    intro k v h
    rw [hfmoved, hmoved5] at h
    cases hlk : Profiles.dictGet? st.moved k with
    | some w =>
      rw [dictGet?_append_of_some _ hlk] at h
      injection h with h2
      subst h2
      exact Or.inl rfl
    | none =>
      rw [dictGet?_append_of_none _ hlk] at h
      have h' : (if src.key = k then some trg.key else none) = some v := h
      by_cases hk : src.key = k
      · rw [if_pos hk] at h'
        injection h' with h2
        exact Or.inr ⟨hk.symm, h2.symm⟩
      · rw [if_neg hk] at h'
        cases h'
  have hmovedf_mono : ∀ k v, Profiles.dictGet? st.moved k = some v →
      Profiles.dictGet? stf.moved k = some v := by
    intro k v h
    rw [hfmoved, hmoved5]
    exact dictGet?_append_of_some _ h
  -- command membership converse
  have hcmdf : ∀ c, CmdInHeap stf.heap c → CmdInHeap st.heap c ∨ c = Cmd.move src trg := by
    rintro c ⟨u, hu⟩
    rw [hfheap] at hu
    rcases hmemf u (Entry.cmd c) hu with hold | ⟨_, hnew⟩
    · exact Or.inl ⟨u, hold⟩
    · rcases hnew with hnew | hnew
      · injection hnew with h2
        exact Or.inr h2
      · cases hnew
  -- the source-tail content fact
  have hsrc_tail : ∀ r t, Profiles.dictGet? st.mods src.key = some (r, t) →
      Entry.cmd (Cmd.move src trg) ∈ stf.heap.getD t [] := by
    intro r t h
    have h1 : Profiles.dictGet? G1.1.mods src.key = some (r, t) :=
      hkeep2 src.key (r, t) h
    have ht : t = G1.2.2 := by
      rw [hself2] at h1
      exact (congrArg Prod.snd (Option.some.inj h1)).symm
    subst ht
    rw [hfheap, hgetDf]
    rw [if_pos rfl]
    exact List.mem_append_right _ (List.mem_append_left _ (by simp))
  -- MF1: the source chain fact
  have hreach_ra : Reach G1.1.heap G1.2.1 G1.2.2 := (hmOK2 src.key _ _ hself2).2.2
  have hreach_ra_f : Reach st3.heap G1.2.1 G1.2.2 :=
    reach_mono G1.1.heap st3.heap hpreG1 hreach_ra
  have hmf1 : ∃ u₀ pre post, stf.heap.getD u₀ [] =
      pre ++ [Entry.cmd (Cmd.move src trg), Entry.ref d] ++ post ∧
      ∃ ra ta, Profiles.dictGet? stf.mods src.key = some (ra, ta) ∧
        Reach stf.heap ra u₀ := by
    refine ⟨G1.2.2, st.heap.getD G1.2.2 [],
      (if G1.2.2 = G2.2.2 then [Entry.ref d] else []), ?_, ?_⟩
    · rw [hfheap, hgetDf, if_pos rfl]
      rw [List.append_assoc]
    · by_cases hk : src.key = trg.key
      · have h1 : Profiles.dictGet? G2.1.mods src.key = some (G1.2.1, G1.2.2) :=
          hkeep4 src.key (G1.2.1, G1.2.2) hself2
      -- both hself4 (with hk) and h1 describe the same key
        have h2 : G2.2.1 = G1.2.1 := by
          rw [hk] at h1
          rw [hself4] at h1
          exact congrArg Prod.fst (Option.some.inj h1)
        refine ⟨G1.2.1, d, ?_, reach_mono st3.heap stf.heap
          (fun i => ⟨[], by rw [hfheap, List.append_nil]⟩) hreach_ra_f⟩
        rw [show Profiles.dictGet? stf.mods src.key =
          Profiles.dictGet? stf.mods trg.key from by rw [hk]]
        rw [hlookftrg, h2]
      · refine ⟨G1.2.1, G1.2.2, ?_, reach_mono st3.heap stf.heap
          (fun i => ⟨[], by rw [hfheap, List.append_nil]⟩) hreach_ra_f⟩
        rw [hfmods, setTail_lookup_ne st3.mods trg.key d src.key hk, hmods5]
        exact hkeep4 src.key (G1.2.1, G1.2.2) hself2
  have hmf3 : ∃ rb, Profiles.dictGet? stf.mods trg.key = some (rb, d) :=
    ⟨G2.2.1, hlookftrg⟩
  have hext : StExtends st stf := by
    refine ⟨?_, ?_, ?_, hmovedf_mono⟩
    · intro i
      obtain ⟨ext, hexti⟩ := hpre0 i
      exact ⟨ext, hexti⟩
    · show st.heap.length ≤ st3.heap.length
      omega
    · intro k r t h
      have h1 : Profiles.dictGet? G1.1.mods k = some (r, t) := hkeep2 k (r, t) h
      have h2 : Profiles.dictGet? G2.1.mods k = some (r, t) := hkeep4 k (r, t) h1
      by_cases hk : k = trg.key
      · subst hk
        have heq : (G2.2.1, G2.2.2) = (r, t) := Option.some.inj (hself4.symm.trans h2)
        have hr : G2.2.1 = r := congrArg Prod.fst heq
        have ht : G2.2.2 = t := congrArg Prod.snd heq
        refine ⟨d, hr ▸ hlookftrg, ?_⟩
        rw [← ht]
        exact hreach_ttail_d
      · refine ⟨t, ?_, .refl t⟩
        rw [hfmods, setTail_lookup_ne st3.mods trg.key d k hk, hmods5]
        exact h2
  have hinvf : Inv stf := by
    have hfl : stf.heap.length = st3.heap.length := rfl
    refine ⟨?_, ?_, ?_, ?_, ?_⟩
    · refine ⟨fun i => if i < d then rank i + 1 else if i = d then 0 else 1, ?_, ?_⟩
      · intro i j hmem
        rcases hmemf i (Entry.ref j) hmem with hold | ⟨hi, hnew⟩
        · have hi_lt : i < d := lt_length_of_getD_ne st.heap i (List.ne_nil_of_mem hold)
          have hj_lt : j < d := hInv.valid i j hold
          have hlt := hrk i j hold
          show (if j < d then rank j + 1 else if j = d then 0 else 1) <
            (if i < d then rank i + 1 else if i = d then 0 else 1)
          rw [if_pos hj_lt, if_pos hi_lt]
          omega
        · rcases hnew with hnew | hnew
          · cases hnew
          · injection hnew with hj
            subst hj
            have hid : i ≠ d := by
              rcases hi with hi | hi
              · rw [hi]; exact hstail_ne_d
              · rw [hi]; exact httail_ne_d
            show (if d < d then rank d + 1 else if d = d then 0 else 1) <
              (if i < d then rank i + 1 else if i = d then 0 else 1)
            rw [if_neg (by omega : ¬ d < d), if_pos rfl]
            by_cases hlt : i < d
            · rw [if_pos hlt]; omega
            · rw [if_neg hlt, if_neg hid]; omega
      · intro i hilen
        rw [hfl] at hilen
        show (if i < d then rank i + 1 else if i = d then 0 else 1) < stf.heap.length
        rw [hfl]
        by_cases hlt : i < d
        · rw [if_pos hlt]
          have := hrb i hlt
          omega
        · by_cases hieq : i = d
          · rw [if_neg hlt, if_pos hieq]
            omega
          · rw [if_neg hlt, if_neg hieq]
            omega
    · intro i j hmem
      rcases hmemf i (Entry.ref j) hmem with hold | ⟨_, hnew⟩
      · have := hInv.valid i j hold
        omega
      · rcases hnew with hnew | hnew
        · cases hnew
        · injection hnew with hj
          subst hj
          omega
    · intro k r t h
      rw [hfmods] at h
      by_cases hk : k = trg.key
      · subst hk
        have heq := Option.some.inj
          ((setTail_lookup_self st3.mods trg.key d G2.2.1 G2.2.2 hlook3trg).symm.trans h)
        have hr : G2.2.1 = r := congrArg Prod.fst heq
        have ht : d = t := congrArg Prod.snd heq
        subst hr
        subst ht
        refine ⟨?_, ?_, ?_⟩
        · have h1 := (hmOK4 trg.key _ _ hself4).1
          omega
        · omega
        · have hre : Reach st3.heap G2.2.1 G2.2.2 :=
            (hmOK5 trg.key G2.2.1 G2.2.2 hlook3trg).2.2
          exact reach_trans _ hre hreach_ttail_d
      · rw [setTail_lookup_ne st3.mods trg.key d k hk] at h
        exact hmOK5 k r t h
    · intro x y hc
      rcases hcmdf (Cmd.move x y) hc with hold | hnew
      · have hcov := hInv.movedCovers x y hold
        rw [Option.isSome_iff_exists] at hcov
        obtain ⟨v, hv⟩ := hcov
        rw [Option.isSome_iff_exists]
        exact ⟨v, hmovedf_mono x.key v hv⟩
      · injection hnew with hx hy
        rw [Option.isSome_iff_exists]
        refine ⟨trg.key, ?_⟩
        rw [hx]
        exact hmovedf_self
    · intro x y x' y' h1 h2 hk
      rcases hcmdf _ h1 with hold1 | hnew1
      · rcases hcmdf _ h2 with hold2 | hnew2
        · exact hInv.movedUnique x y x' y' hold1 hold2 hk
        · exfalso
          injection hnew2 with hx hy
          have hcov := hInv.movedCovers x y hold1
          rw [hk, hx, hmoved] at hcov
          simp at hcov
      · rcases hcmdf _ h2 with hold2 | hnew2
        · exfalso
          injection hnew1 with hx hy
          have hcov := hInv.movedCovers x' y' hold2
          rw [← hk, hx, hmoved] at hcov
          simp at hcov
        · injection hnew1 with hx hy
          injection hnew2 with hx' hy'
          exact ⟨hx.trans hx'.symm, hy.trans hy'.symm⟩
  exact ⟨hinvf, hext, hmovedf_self, hmovedf_conv, hmf1, hmf3, hcmdf, hsrc_tail⟩

theorem doSlotmove_spec (st : St) (src : UAtom) (oldSlot newSlot : String)
    (hInv : Inv st) :
    Inv (doSlotmove st src oldSlot newSlot) ∧
    StExtends st (doSlotmove st src oldSlot newSlot) ∧
    (doSlotmove st src oldSlot newSlot).moved = st.moved := by
  obtain ⟨rank, hrk, hrb⟩ := hInv.acyc
  set c : Cmd := Cmd.slotmove { src with slot := some oldSlot } newSlot with hc
  set G := getMods st src.key with hG
  set stf := pushAt G.1 G.2.2 [Entry.cmd c] with hstf
  have hres : doSlotmove st src oldSlot newSlot = stf := rfl
  rw [hres]
  obtain ⟨hq, hlen, hmovedG, hself, hkeep, hconv, hdisj⟩ := getMods_spec st src.key
  rw [← hG] at hq hlen hmovedG hself hkeep hconv hdisj
  have hmOKG : ModsOK G.1.heap G.1.mods := by
    rw [hG]
    exact getMods_modsOK st src.key hInv.modsValid
  have htail_lt : G.2.2 < G.1.heap.length := (hmOKG src.key G.2.1 G.2.2 hself).2.1
  have hflen : stf.heap.length = G.1.heap.length := by
    rw [hstf]
    exact pushAt_len G.1 G.2.2 _
  have hfmods : stf.mods = G.1.mods := rfl
  have hfmoved : stf.moved = st.moved := by
    rw [show stf.moved = G.1.moved from rfl, hmovedG]
  have hgetDf : ∀ i, stf.heap.getD i [] = st.heap.getD i [] ++
      (if i = G.2.2 then [Entry.cmd c] else []) := by
    intro i
    by_cases h : i = G.2.2
    · rw [h, if_pos rfl, ← hq G.2.2, hstf]
      exact pushAt_getD_self G.1 G.2.2 _ htail_lt
    · rw [if_neg h, List.append_nil, ← hq i, hstf]
      exact pushAt_getD_ne G.1 G.2.2 _ i h
  have hmemf : ∀ i e, e ∈ stf.heap.getD i [] →
      e ∈ st.heap.getD i [] ∨ e = Entry.cmd c := by
    intro i e he
    rw [hgetDf i] at he
    rcases List.mem_append.mp he with h | h
    · exact Or.inl h
    · by_cases hi : i = G.2.2
      · rw [if_pos hi] at h
        exact Or.inr (List.mem_singleton.mp h)
      · rw [if_neg hi] at h
        cases h
  have hlenle : st.heap.length ≤ stf.heap.length := by omega
  have hcmdf : ∀ c', CmdInHeap stf.heap c' → CmdInHeap st.heap c' ∨ c' = c := by
    rintro c' ⟨u, hu⟩
    rcases hmemf u (Entry.cmd c') hu with hold | hnew
    · exact Or.inl ⟨u, hold⟩
    · injection hnew with h2
      exact Or.inr h2
  refine ⟨?_, ?_, hfmoved⟩
  · refine ⟨?_, ?_, ?_, ?_, ?_⟩
    · refine ⟨fun i => if i < st.heap.length then rank i else 0, ?_, ?_⟩
      · intro i j hmem
        rcases hmemf i (Entry.ref j) hmem with hold | hnew
        · have hi_lt : i < st.heap.length :=
            lt_length_of_getD_ne st.heap i (List.ne_nil_of_mem hold)
          have hj_lt : j < st.heap.length := hInv.valid i j hold
          have hlt := hrk i j hold
          show (if j < st.heap.length then rank j else 0) <
            (if i < st.heap.length then rank i else 0)
          rw [if_pos hj_lt, if_pos hi_lt]
          omega
        · cases hnew
      · intro i hilen
        show (if i < st.heap.length then rank i else 0) < stf.heap.length
        rw [hflen]
        rw [hflen] at hilen
        by_cases hlt : i < st.heap.length
        · rw [if_pos hlt]
          have h1 := hrb i hlt
          omega
        · rw [if_neg hlt]
          omega
    · intro i j hmem
      rcases hmemf i (Entry.ref j) hmem with hold | hnew
      · have h1 := hInv.valid i j hold
        rw [hflen]
        omega
      · cases hnew
    · rw [hstf]
      exact modsOK_push G.1 G.2.2 _ htail_lt hmOKG
    · intro x y hcm
      rcases hcmdf (Cmd.move x y) hcm with hold | hnew
      · rw [hfmoved]
        exact hInv.movedCovers x y hold
      · exact absurd hnew (by rw [hc]; intro h; cases h)
    · intro x y x' y' h1 h2 hk
      rcases hcmdf _ h1 with hold1 | hnew1
      · rcases hcmdf _ h2 with hold2 | hnew2
        · exact hInv.movedUnique x y x' y' hold1 hold2 hk
        · exact absurd hnew2 (by rw [hc]; intro h; cases h)
      · exact absurd hnew1 (by rw [hc]; intro h; cases h)
  · refine ⟨?_, hlenle, ?_, ?_⟩
    · intro i
      exact ⟨_, hgetDf i⟩
    · intro k r t h
      refine ⟨t, ?_, .refl t⟩
      rw [hfmods]
      exact hkeep k (r, t) h
    · intro k v h
      rw [hfmoved]
      exact h

theorem processLine_move_eq (st : St) (src trg : UAtom)
    (h1 : src.fullver = none) (h2 : trg.fullver = none)
    (h3 : Profiles.dictGet? st.moved src.key = none) :
    processLine st (Line.move src trg) = doMove st src trg := by
  show (if src.fullver.isSome then st
    else if trg.fullver.isSome then st
    else if (Profiles.dictGet? st.moved src.key).isSome then st
    else doMove st src trg) = doMove st src trg
  rw [h1, h2, h3]
  rfl

theorem processLine_spec (st : St) (l : Line) (hInv : Inv st) :
    Inv (processLine st l) ∧ StExtends st (processLine st l) := by
  cases l with
  | move src trg =>
    have hred : processLine st (Line.move src trg) =
        (if src.fullver.isSome then st
         else if trg.fullver.isSome then st
         else if (Profiles.dictGet? st.moved src.key).isSome then st
         else doMove st src trg) := rfl
    by_cases h1 : src.fullver.isSome
    · rw [hred, if_pos h1]
      exact ⟨hInv, stExtends_refl st⟩
    · by_cases h2 : trg.fullver.isSome
      · rw [hred, if_neg h1, if_pos h2]
        exact ⟨hInv, stExtends_refl st⟩
      · by_cases h3 : (Profiles.dictGet? st.moved src.key).isSome
        · rw [hred, if_neg h1, if_neg h2, if_pos h3]
          exact ⟨hInv, stExtends_refl st⟩
        · have hnone : Profiles.dictGet? st.moved src.key = none :=
            Option.not_isSome_iff_eq_none.mp h3
          rw [hred, if_neg h1, if_neg h2, if_neg h3]
          obtain ⟨hi, he, _⟩ := doMove_spec st src trg hInv hnone
          exact ⟨hi, he⟩
  | slotmove src oldSlot newSlot =>
    have hred : processLine st (Line.slotmove src oldSlot newSlot) =
        (if (Profiles.dictGet? st.moved src.key).isSome then st
         else if src.slot.isSome then st
         else doSlotmove st src oldSlot newSlot) := rfl
    by_cases h1 : (Profiles.dictGet? st.moved src.key).isSome
    · rw [hred, if_pos h1]
      exact ⟨hInv, stExtends_refl st⟩
    · by_cases h2 : src.slot.isSome
      · rw [hred, if_neg h1, if_pos h2]
        exact ⟨hInv, stExtends_refl st⟩
      · rw [hred, if_neg h1, if_neg h2]
        obtain ⟨hi, he, _⟩ := doSlotmove_spec st src oldSlot newSlot hInv
        exact ⟨hi, he⟩
  | skip => exact ⟨hInv, stExtends_refl st⟩

theorem processLines_cons (l : Line) (ls : List Line) (st : St) :
    processLines (l :: ls) st = processLines ls (processLine st l) := rfl

theorem processLines_append (l1 l2 : List Line) (st : St) :
    processLines (l1 ++ l2) st = processLines l2 (processLines l1 st) := by
  show List.foldl processLine st (l1 ++ l2) = _
  rw [List.foldl_append]
  rfl

theorem processLines_spec (lines : List Line) :
    ∀ st, Inv st → Inv (processLines lines st) ∧
      StExtends st (processLines lines st) := by
  induction lines with
  | nil => exact fun st h => ⟨h, stExtends_refl st⟩
  | cons l ls ih =>
    intro st h
    rw [processLines_cons]
    have h1 := processLine_spec st l h
    have h2 := ih (processLine st l) h1.1
    exact ⟨h2.1, stExtends_trans h1.2 h2.2⟩

/-- One step of the flattening flatMap. -/
def entryExpand (heap : List (List Entry)) (fuel : Nat) : Entry → List Cmd
  | .cmd c => [c]
  | .ref j => flattenF heap fuel j

theorem flattenF_succ (heap : List (List Entry)) (fuel i : Nat) :
    flattenF heap (fuel + 1) i =
      (heap.getD i []).flatMap (entryExpand heap fuel) := by
  show (heap.getD i []).flatMap _ = _
  apply flatMap_congr
  intro e _
  cases e <;> rfl

/-- Looking a key up in the flattened-and-filtered `mods` list: the first
entry for the key survives the filter whenever its flattened value is
nonempty, and no earlier entry for the key can shadow it. -/
theorem dictGet?_map_filter (mods : List (String × Nat × Nat))
    (f : Nat × Nat → List Cmd) (k : String) (rt : Nat × Nat)
    (h : Profiles.dictGet? mods k = some rt) (hne : (f rt).isEmpty = false) :
    Profiles.dictGet? ((mods.map (fun kv => (kv.1, f kv.2))).filter
      (fun kv => !kv.2.isEmpty)) k = some (f rt) := by
  induction mods with
  | nil => cases h
  | cons kv rest ih =>
    have h' : (if kv.1 = k then some kv.2 else Profiles.dictGet? rest k)
        = some rt := h
    by_cases hk : kv.1 = k
    · rw [if_pos hk] at h'
      have hval : kv.2 = rt := Option.some.inj h'
      show Profiles.dictGet?
        (((kv.1, f kv.2) :: rest.map (fun kv => (kv.1, f kv.2))).filter
          (fun kv => !kv.2.isEmpty)) k = some (f rt)
      rw [List.filter_cons]
      have hcond : (!(f kv.2).isEmpty) = true := by
        rw [hval, hne]
        rfl
      rw [if_pos hcond]
      show (if kv.1 = k then some (f kv.2) else _) = some (f rt)
      rw [if_pos hk, hval]
    · rw [if_neg hk] at h'
      show Profiles.dictGet?
        (((kv.1, f kv.2) :: rest.map (fun kv => (kv.1, f kv.2))).filter
          (fun kv => !kv.2.isEmpty)) k = some (f rt)
      rw [List.filter_cons]
      by_cases hcond : (!(f kv.2).isEmpty) = true
      · rw [if_pos hcond]
        show (if kv.1 = k then some (f kv.2) else _) = some (f rt)
        rw [if_neg hk]
        exact ih h'
      · rw [if_neg hcond]
        exact ih h'

/-- C1: for an updates directory whose concatenated line sequence (in
sorted file order and line order) contains `move A B` followed later by
`move B C`, with version-free atoms, where `A` is not yet a moved source
when `move A B` is processed and `B` is not yet a moved source when
`move B C` is processed, the mapping returned by `read_updates` contains
under key `A` a command list holding both move commands in that order,
and that list never contains a second move originating from `A`: every
move command in it whose source has key `A` is exactly `move A B` (so
any later `move A X` line was dropped as redundant). -/
theorem read_updates_move_chain (listing : List (String × List Line))
    (l1 l2 l3 : List Line) (a b c : UAtom)
    (hsplit : linesOf listing = l1 ++ Line.move a b :: l2 ++ Line.move b c :: l3)
    (haf : a.fullver = none) (hbf : b.fullver = none) (hcf : c.fullver = none)
    (hm1 : Profiles.dictGet? (processLines l1 initSt).moved a.key = none)
    (hm2 : Profiles.dictGet?
      (processLines (l1 ++ Line.move a b :: l2) initSt).moved b.key = none) :
    ∃ cmds, Profiles.dictGet? (read_updates listing) a.key = some cmds ∧
      (∃ u v w, cmds = u ++ Cmd.move a b :: v ++ Cmd.move b c :: w) ∧
      (∀ x y, Cmd.move x y ∈ cmds → x.key = a.key → x = a ∧ y = b) := by
  obtain ⟨hInv1, -⟩ := processLines_spec l1 initSt inv_init
  set st1 := processLines l1 initSt with hst1
  obtain ⟨hInv2, -, -, -, hmf1, hmf3, -, -⟩ := doMove_spec st1 a b hInv1 hm1
  set st2 := doMove st1 a b with hst2
  obtain ⟨hInv3, hext23⟩ := processLines_spec l2 st2 hInv2
  set st3 := processLines l2 st2 with hst3
  have hst3eq : processLines (l1 ++ Line.move a b :: l2) initSt = st3 := by
    rw [processLines_append, ← hst1, processLines_cons,
      processLine_move_eq st1 a b haf hbf hm1, ← hst2, ← hst3]
  rw [hst3eq] at hm2
  obtain ⟨hInv4, hext34, -, -, -, -, -, hsrctail4⟩ := doMove_spec st3 b c hInv3 hm2
  set st4 := doMove st3 b c with hst4
  obtain ⟨hInv5, hext45⟩ := processLines_spec l3 st4 hInv4
  set st5 := processLines l3 st4 with hst5
  obtain ⟨u₀, pre, post, hu₀2, ra, ta, hlook2a, hreach2⟩ := hmf1
  obtain ⟨rb, hlook2b⟩ := hmf3
  have hext25 : StExtends st2 st5 :=
    stExtends_trans hext23 (stExtends_trans hext34 hext45)
  have hext35 : StExtends st3 st5 := stExtends_trans hext34 hext45
  obtain ⟨ext5, hext5⟩ := hext25.heapPrefix u₀
  have hu₀5 : st5.heap.getD u₀ [] =
      pre ++ [Entry.cmd (Cmd.move a b), Entry.ref st1.heap.length] ++
        (post ++ ext5) := by
    rw [hext5, hu₀2, List.append_assoc]
  obtain ⟨ta5, hlook5a, -⟩ := hext25.modsRoot a.key ra ta hlook2a
  have hreach5 : Reach st5.heap ra u₀ :=
    reach_mono st2.heap st5.heap hext25.heapPrefix hreach2
  obtain ⟨t', hlook3b, hreach3dt⟩ :=
    hext23.modsRoot b.key rb st1.heap.length hlook2b
  have hmBC4 : Entry.cmd (Cmd.move b c) ∈ st4.heap.getD t' [] :=
    hsrctail4 rb t' hlook3b
  obtain ⟨ext4, hext4⟩ := hext45.heapPrefix t'
  have hmBC5 : Entry.cmd (Cmd.move b c) ∈ st5.heap.getD t' [] := by
    rw [hext4]
    exact List.mem_append_left _ hmBC4
  have hreach5dt : Reach st5.heap st1.heap.length t' :=
    reach_mono st3.heap st5.heap hext35.heapPrefix hreach3dt
  obtain ⟨rnk, hrk, hrb5⟩ := hInv5.acyc
  have hra_lt : ra < st5.heap.length := (hInv5.modsValid a.key ra ta5 hlook5a).1
  have hrnkra : rnk ra < st5.heap.length := hrb5 ra hra_lt
  obtain ⟨X, Y, hXY⟩ := flattenF_infix_of_reach st5.heap rnk hrk hreach5
    st5.heap.length hrnkra
  have hrefd : Entry.ref st1.heap.length ∈ st5.heap.getD u₀ [] := by
    rw [hu₀5]
    exact List.mem_append_left _ (List.mem_append_right _ (by simp))
  have hrnkd : rnk st1.heap.length < rnk u₀ := hrk u₀ _ hrefd
  have hmBCflat : Cmd.move b c ∈ flattenF st5.heap (rnk u₀) st1.heap.length :=
    mem_flattenF_of_reach st5.heap rnk hrk hreach5dt hmBC5 (rnk u₀) hrnkd
  obtain ⟨P, Q, hPQ⟩ := List.append_of_mem hmBCflat
  have hflatu₀ : flattenF st5.heap (rnk u₀ + 1) u₀ =
      pre.flatMap (entryExpand st5.heap (rnk u₀)) ++
        Cmd.move a b :: (flattenF st5.heap (rnk u₀) st1.heap.length ++
          (post ++ ext5).flatMap (entryExpand st5.heap (rnk u₀))) := by
    rw [flattenF_succ, hu₀5]
    simp [entryExpand, List.flatMap_append]
  have hstruct : flattenF st5.heap st5.heap.length ra =
      (X ++ pre.flatMap (entryExpand st5.heap (rnk u₀))) ++
        Cmd.move a b :: (P ++ Cmd.move b c ::
          (Q ++ (post ++ ext5).flatMap (entryExpand st5.heap (rnk u₀)) ++ Y)) := by
    rw [hXY, hflatu₀, hPQ]
    simp [List.append_assoc]
  have hne : (flattenF st5.heap st5.heap.length ra).isEmpty = false := by
    rw [hstruct]
    cases (X ++ pre.flatMap (entryExpand st5.heap (rnk u₀))) <;> rfl
  have hfinal : processLines (linesOf listing) initSt = st5 := by
    rw [hsplit, processLines_append, hst3eq, processLines_cons,
      processLine_move_eq st3 b c hbf hcf hm2, ← hst4, ← hst5]
  have hout : read_updates listing =
      (st5.mods.map
        (fun kv => (kv.1, flattenF st5.heap st5.heap.length kv.2.1))).filter
        (fun kv => !kv.2.isEmpty) := by
    show ((processLines (linesOf listing) initSt).mods.map
      (fun kv => (kv.1, flattenF (processLines (linesOf listing) initSt).heap
        (processLines (linesOf listing) initSt).heap.length kv.2.1))).filter
      (fun kv => !kv.2.isEmpty) = _
    rw [hfinal]
  refine ⟨flattenF st5.heap st5.heap.length ra, ?_, ?_, ?_⟩
  · rw [hout]
    exact dictGet?_map_filter st5.mods
      (fun rt => flattenF st5.heap st5.heap.length rt.1) a.key (ra, ta5)
      hlook5a hne
  · exact ⟨X ++ pre.flatMap (entryExpand st5.heap (rnk u₀)), P,
      Q ++ (post ++ ext5).flatMap (entryExpand st5.heap (rnk u₀)) ++ Y,
      by rw [hstruct]; simp⟩
  · intro x y hmem hkey
    have hciH : CmdInHeap st5.heap (Cmd.move x y) :=
      flattenF_mem_heap st5.heap st5.heap.length ra (Cmd.move x y) hmem
    have hab : CmdInHeap st5.heap (Cmd.move a b) := ⟨u₀, by
      rw [hu₀5]
      exact List.mem_append_left _ (List.mem_append_right _ (by simp))⟩
    exact hInv5.movedUnique x y a b hciH hab hkey

theorem read_updates_move_chain_witness :
    ∃ cmds, Profiles.dictGet? (read_updates
        [("1Q-2020", [Line.move ⟨"c/a", none, none⟩ ⟨"c/b", none, none⟩,
          Line.move ⟨"c/b", none, none⟩ ⟨"c/c", none, none⟩,
          Line.move ⟨"c/a", none, none⟩ ⟨"c/x", none, none⟩])])
        "c/a" = some cmds ∧
      (∃ u v w, cmds = u ++ Cmd.move ⟨"c/a", none, none⟩ ⟨"c/b", none, none⟩ ::
        v ++ Cmd.move ⟨"c/b", none, none⟩ ⟨"c/c", none, none⟩ :: w) ∧
      (∀ x y, Cmd.move x y ∈ cmds → x.key = "c/a" →
        x = ⟨"c/a", none, none⟩ ∧ y = ⟨"c/b", none, none⟩) :=
  read_updates_move_chain
    [("1Q-2020", [Line.move ⟨"c/a", none, none⟩ ⟨"c/b", none, none⟩,
      Line.move ⟨"c/b", none, none⟩ ⟨"c/c", none, none⟩,
      Line.move ⟨"c/a", none, none⟩ ⟨"c/x", none, none⟩])]
    [] [] [Line.move ⟨"c/a", none, none⟩ ⟨"c/x", none, none⟩]
    ⟨"c/a", none, none⟩ ⟨"c/b", none, none⟩ ⟨"c/c", none, none⟩
    rfl rfl rfl rfl rfl rfl
